import Mathlib

/-!
# Verification of the authorship-roster toolchain

A shallow embedding of the core logic of the repository:

* `renumber_affiliations.py` : the renumbering engine (`renumber_affiliations`),
* `author_doc_to_csv.py`     : text segmenter (`parse_data`), affiliation parser
  (`parse_affiliations_to_dict`) and author parser (`parse_authors_to_list`),
* `csv_to_author_doc.py`     : document renderer (`generate_document_xml`),
  in particular its id-sorting step.

Python strings are modelled as Lean `String`s; the handful of Python string
primitives that the code uses (`str.strip`, `str.split(',')`, `str.split()`,
`','.join`, `str(int)`, `str.lower`, …) are embedded as explicit recursions
over the character list, so that every definition is executable and provable.
Python dicts are modelled as association lists in insertion order (duplicate
keys never arise in a dict; where this matters the theorems carry a
`Nodup`-keys hypothesis).
-/

namespace Authorship

/-! ## Python string primitives -/

/-- ASCII whitespace as recognised by Python `str.strip()` :
space, tab, newline, carriage return, vertical tab, form feed. -/
def isPyWs (c : Char) : Bool :=
  c = ' ' || c = '\t' || c = '\n' || c = '\r' || c.toNat = 11 || c.toNat = 12

/-- Python `str.strip()` on a character list: drop leading and trailing
whitespace. -/
def trimChars (l : List Char) : List Char :=
  ((l.dropWhile isPyWs).reverse.dropWhile isPyWs).reverse

/-- Python `s.split(sep)` for a one-character separator `sep` : split at every
occurrence, keeping empty pieces (so `"".split(',') = [""]`). -/
def splitOnCh (sep : Char) : List Char → List (List Char)
  | [] => [[]]
  | c :: rest =>
    if c = sep then [] :: splitOnCh sep rest
    else
      match splitOnCh sep rest with
      | [] => [[c]]
      | p :: ps => (c :: p) :: ps

/-- Python `sep.join(pieces)` for a one-character separator. -/
def joinWith (sep : Char) : List (List Char) → List Char
  | [] => []
  | [p] => p
  | p :: ps => p ++ sep :: joinWith sep ps

/-- Python `str.strip()` at the `String` level. -/
def pyStrip (s : String) : String := String.mk (trimChars s.data)

/-- The decimal digit character for a value `d < 10`. -/
def digitCh (d : Nat) : Char := Char.ofNat (48 + d)

/-- Fuel-driven digit expansion (structural recursion, so that concrete
values reduce inside the kernel). -/
def natDigitsAux : Nat → Nat → List Char
  | 0, _ => []
  | fuel + 1, n =>
    if n < 10 then [digitCh n]
    else natDigitsAux fuel (n / 10) ++ [digitCh (n % 10)]

/-- The decimal digit characters of a natural number, most significant first:
the character content of Python `str(n)` for a non-negative int. -/
def natDigits (n : Nat) : List Char := natDigitsAux (n + 1) n

theorem natDigitsAux_fuel : ∀ (f₁ f₂ n : Nat), n < f₁ → n < f₂ →
    natDigitsAux f₁ n = natDigitsAux f₂ n := by
  intro f₁
  induction f₁ with
  | zero => intro f₂ n h₁; omega
  | succ f ih =>
    intro f₂ n h₁ h₂
    cases f₂ with
    | zero => omega
    | succ g =>
      rw [natDigitsAux, natDigitsAux]
      by_cases h : n < 10
      · simp [h]
      · simp only [h, if_false]
        have hdiv : n / 10 < n := Nat.div_lt_self (by omega) (by omega)
        rw [ih g (n / 10) (by omega) (by omega)]

/-- The self-unfolding equation of `natDigits`. -/
theorem natDigits_eq (n : Nat) :
    natDigits n = if n < 10 then [digitCh n]
      else natDigits (n / 10) ++ [digitCh (n % 10)] := by
  unfold natDigits
  rw [natDigitsAux]
  by_cases h : n < 10
  · simp [h]
  · simp only [h, if_false]
    have hdiv : n / 10 < n := Nat.div_lt_self (by omega) (by omega)
    rw [natDigitsAux_fuel n (n / 10 + 1) (n / 10) (by omega) (by omega)]

/-- Python `str(n)` for a non-negative integer. -/
def natToStr (n : Nat) : String := String.mk (natDigits n)

/-- Reading a digit list back as a number (decimal positional value). -/
def digitsVal (l : List Char) : Nat :=
  l.foldl (fun a c => a * 10 + (c.toNat - 48)) 0

/-- Python `str.lower()` restricted to ASCII letters (the code only ever
compares the result against the ASCII literal word "affiliations"). -/
def asciiLower (c : Char) : Char :=
  if c.toNat ≥ 65 && c.toNat ≤ 90 then Char.ofNat (c.toNat + 32) else c

/-! ## The renumbering engine (`renumber_affiliations.py`) -/

/-- One row of the names CSV, as read by `read_inputs` :
last name, first/middle name, comma-separated affiliation id string. -/
structure Author where
  last : String
  first : String
  affils : String
deriving Repr, DecidableEq

/-- The affiliation dict `{id: text}`, in insertion order. -/
abbrev AMap := List (String × String)

/-- `[x.strip() for x in s.split(',') if x.strip()]` — the id parsing done on
each author's affiliation string (line 35 of `renumber_affiliations.py`). -/
def parseIds (s : String) : List String :=
  ((splitOnCh ',' s.data).map (fun p => String.mk (trimChars p))).filter
    (fun x => x ≠ "")

/-- Python `",".join l`. -/
def joinComma (l : List String) : String :=
  String.mk (joinWith ',' (l.map String.data))

/-- The mutable state of one run of `renumber_affiliations` :
`old_to_new_id_map`, `new_affiliations_list`, `current_new_id`, and the
warnings printed so far (each recorded as the pair of the referencing
author's last name and the missing id). -/
structure RenState where
  remap : List (String × String)
  newAffils : List (String × String)
  nextId : Nat
  warnings : List (String × String)
deriving Repr, DecidableEq

/-- Initial state: empty tables, counter at 1. -/
def renInit : RenState := ⟨[], [], 1, []⟩

/-- The body of the inner loop (lines 39–56): process one original id `oid`
for the author with last name `alast`, returning the updated state and the
new id recorded for this author. -/
def processOid (amap : AMap) (alast : String) (st : RenState) (oid : String) :
    RenState × String :=
  match st.remap.lookup oid with
  | some nid => (st, nid)
  | none =>
    match amap.lookup oid with
    | none =>
      ({ st with
          remap := st.remap ++ [(oid, oid)],
          warnings := st.warnings ++ [(alast, oid)] }, oid)
    | some t =>
      let nid := natToStr st.nextId
      ({ st with
          remap := st.remap ++ [(oid, nid)],
          newAffils := st.newAffils ++ [(nid, t)],
          nextId := st.nextId + 1 }, nid)

/-- Process an author's parsed id list in order, collecting
`new_ids_for_this_author`. -/
def processIds (amap : AMap) (alast : String) (st : RenState) :
    List String → RenState × List String
  | [] => (st, [])
  | oid :: rest =>
    let p := processOid amap alast st oid
    let q := processIds amap alast p.1 rest
    (q.1, p.2 :: q.2)

/-- The outer loop over authors (lines 25–61): an author whose affiliation
string strips to empty is passed through untouched; otherwise their ids are
processed and the affiliation string rewritten. -/
def processAuthors (amap : AMap) (st : RenState) :
    List Author → RenState × List Author
  | [] => (st, [])
  | a :: rest =>
    if pyStrip a.affils = "" then
      let q := processAuthors amap st rest
      (q.1, a :: q.2)
    else
      let p := processIds amap a.last st (parseIds a.affils)
      let q := processAuthors amap p.1 rest
      (q.1, { a with affils := joinComma p.2 } :: q.2)

/-- The orphan pass (lines 63–70): every mapping entry whose key has no
RemapTable entry yet is appended with the next sequential id, in the
mapping's iteration order. -/
def orphanPass (st : RenState) : AMap → RenState
  | [] => st
  | (oid, t) :: rest =>
    if (st.remap.lookup oid).isSome then orphanPass st rest
    else
      orphanPass
        { st with
            remap := st.remap ++ [(oid, natToStr st.nextId)],
            newAffils := st.newAffils ++ [(natToStr st.nextId, t)],
            nextId := st.nextId + 1 } rest

/-- The final engine state after the author pass and the orphan pass. -/
def renFinal (names : List Author) (amap : AMap) : RenState :=
  orphanPass (processAuthors amap renInit names).1 amap

/-- `renumber_affiliations(names_data, affiliations_map)` : returns
`(new_affiliations_list, updated_names_data)`. -/
def renumber_affiliations (names : List Author) (amap : AMap) :
    List (String × String) × List Author :=
  ((renFinal names amap).newAffils, (processAuthors amap renInit names).2)

/-! ## Specification-side views of the engine

Pure recursive descriptions of what the loops above compute, used to state
and prove the claims. -/

/-- All ids referenced by the author list, in processing order,
with repetitions. -/
def refsOf (names : List Author) : List String :=
  names.flatMap (fun a => parseIds a.affils)

/-- The flattened reference stream paired with the referencing author's
last name. -/
def flatRefs (names : List Author) : List (String × String) :=
  names.flatMap (fun a => (parseIds a.affils).map (fun oid => (a.last, oid)))

/-- First-appearance deduplication relative to an already-seen set. -/
def dedupSeen (seen : List String) : List String → List String
  | [] => []
  | x :: xs => if x ∈ seen then dedupSeen seen xs else x :: dedupSeen (x :: seen) xs

/-- The distinct referenced ids in order of first appearance. -/
def usedIds (names : List Author) : List String :=
  dedupSeen [] (refsOf names)

/-- The RemapTable entries created for a list of distinct freshly discovered
ids, with the counter starting at `n` : ids present in the mapping get the
next sequential number, absent ids map to themselves. -/
def newIdsFor (amap : AMap) : Nat → List String → List (String × String)
  | _, [] => []
  | n, oid :: rest =>
    match amap.lookup oid with
    | none => (oid, oid) :: newIdsFor amap n rest
    | some _ => (oid, natToStr n) :: newIdsFor amap (n + 1) rest

/-- The output affiliation entries created for a list of distinct freshly
discovered ids, with the counter starting at `n`. -/
def newAffilsFor (amap : AMap) : Nat → List String → List (String × String)
  | _, [] => []
  | n, oid :: rest =>
    match amap.lookup oid with
    | none => newAffilsFor amap n rest
    | some t => (natToStr n, t) :: newAffilsFor amap (n + 1) rest

/-- How many of the given ids are present in the mapping. -/
def presentCount (amap : AMap) (l : List String) : Nat :=
  (l.filter (fun oid => (amap.lookup oid).isSome)).length

/-- The warnings emitted while scanning the reference stream: one per first
encounter of an id absent from the mapping, naming the referencing author. -/
def warnsFor (amap : AMap) (seen : List String) :
    List (String × String) → List (String × String)
  | [] => []
  | (alast, oid) :: rest =>
    if oid ∈ seen then warnsFor amap seen rest
    else
      match amap.lookup oid with
      | none => (alast, oid) :: warnsFor amap (oid :: seen) rest
      | some _ => warnsFor amap (oid :: seen) rest

/-- The remap and affiliation entries appended by the orphan pass, given the
set of keys already remapped and the starting counter. -/
def orphanSpec (seen : List String) (n : Nat) :
    AMap → List (String × String) × List (String × String)
  | [] => ([], [])
  | (oid, t) :: rest =>
    if oid ∈ seen then orphanSpec seen n rest
    else
      let p := orphanSpec (oid :: seen) (n + 1) rest
      ((oid, natToStr n) :: p.1, (natToStr n, t) :: p.2)

/-! ## Association-list lookup lemmas -/

theorem lookup_append_some {l t : List (String × String)} {k v : String}
    (h : l.lookup k = some v) : (l ++ t).lookup k = some v := by
  induction l with
  | nil => simp [List.lookup] at h
  | cons p rest ih =>
    rw [List.cons_append, List.lookup]
    rw [List.lookup] at h
    cases hk : (k == p.1) with
    | true => simpa [hk] using h
    | false => simp only [hk] at h ⊢; exact ih h

theorem lookup_append_none {l t : List (String × String)} {k : String}
    (h : l.lookup k = none) : (l ++ t).lookup k = t.lookup k := by
  induction l with
  | nil => simp
  | cons p rest ih =>
    rw [List.cons_append, List.lookup]
    rw [List.lookup] at h
    cases hk : (k == p.1) with
    | true => simp [hk] at h
    | false => simp only [hk] at h ⊢; exact ih h

theorem lookup_isSome_iff {l : List (String × String)} {k : String} :
    (l.lookup k).isSome = true ↔ k ∈ l.map Prod.fst := by
  induction l with
  | nil => simp [List.lookup]
  | cons p rest ih =>
    rw [List.lookup]
    cases hk : (k == p.1) with
    | true => simp [beq_iff_eq.mp hk]
    | false =>
      have : ¬ k = p.1 := fun hh => by simp [hh] at hk
      simp [this, ih]

theorem lookup_mem {l : List (String × String)} {k v : String}
    (h : l.lookup k = some v) : (k, v) ∈ l := by
  induction l with
  | nil => simp [List.lookup] at h
  | cons p rest ih =>
    rw [List.lookup] at h
    cases hk : (k == p.1) with
    | true =>
      simp only [hk] at h
      have hk1 : k = p.1 := beq_iff_eq.mp hk
      subst hk1
      cases h
      exact List.mem_cons_self _ _
    | false => simp only [hk] at h; exact List.mem_cons_of_mem _ (ih h)

theorem lookup_singleton_append {l : List (String × String)} {k v : String}
    (h : l.lookup k = none) : (l ++ [(k, v)]).lookup k = some v := by
  rw [lookup_append_none h]; simp [List.lookup]

/-! ## Facts about the decimal printer `natToStr` -/

theorem digitCh_toNat (d : Nat) (h : d < 10) : (digitCh d).toNat = 48 + d := by
  interval_cases d <;> rfl

theorem natDigits_facts (n : Nat) :
    natDigits n ≠ [] ∧ ∀ c ∈ natDigits n, 48 ≤ c.toNat ∧ c.toNat ≤ 57 := by
  induction n using Nat.strong_induction_on with
  | _ n ih =>
    rw [natDigits_eq]
    by_cases h : n < 10
    · rw [if_pos h]
      refine ⟨by simp, ?_⟩
      intro c hc
      simp at hc; subst hc
      rw [digitCh_toNat n h]; omega
    · rw [if_neg h]
      have hd := ih (n / 10) (Nat.div_lt_self (by omega) (by omega))
      refine ⟨by simp [hd.1], ?_⟩
      intro c hc
      rcases List.mem_append.mp hc with h1 | h2
      · exact hd.2 c h1
      · simp at h2; subst h2
        rw [digitCh_toNat (n % 10) (Nat.mod_lt _ (by omega))]; omega

theorem digitsVal_append (l : List Char) (c : Char) :
    digitsVal (l ++ [c]) = digitsVal l * 10 + (c.toNat - 48) := by
  simp [digitsVal, List.foldl_append]

theorem digitsVal_natDigits (n : Nat) : digitsVal (natDigits n) = n := by
  induction n using Nat.strong_induction_on with
  | _ n ih =>
    rw [natDigits_eq]
    by_cases h : n < 10
    · rw [if_pos h]
      have := digitCh_toNat n h
      simp [digitsVal, this]
    · rw [if_neg h]
      rw [digitsVal_append, ih (n / 10) (Nat.div_lt_self (by omega) (by omega))]
      have := digitCh_toNat (n % 10) (Nat.mod_lt _ (by omega))
      omega

theorem natToStr_injective : Function.Injective natToStr := by
  intro m n h
  have hd : natDigits m = natDigits n := congrArg String.data h
  have := digitsVal_natDigits m
  rw [hd, digitsVal_natDigits] at this
  omega

/-- Every character of `natToStr n` is a decimal digit; hence the string is
nonempty, comma-free, whitespace-free. -/
theorem natToStr_chars (n : Nat) :
    (natToStr n).data ≠ [] ∧
      ∀ c ∈ (natToStr n).data, isPyWs c = false ∧ c ≠ ',' := by
  have h := natDigits_facts n
  refine ⟨by simpa [natToStr] using h.1, ?_⟩
  intro c hc
  have hv : 48 ≤ c.toNat ∧ c.toNat ≤ 57 :=
    h.2 c (by simpa [natToStr] using hc)
  obtain ⟨hv1, hv2⟩ := hv
  constructor
  · cases hw : isPyWs c with
    | false => rfl
    | true =>
      exfalso
      simp only [isPyWs, Bool.or_eq_true, decide_eq_true_eq] at hw
      rcases hw with ((((h1 | h1) | h1) | h1) | h1) | h1 <;>
        first
          | omega
          | (subst h1; revert hv1 hv2; decide)
  · intro hcc; subst hcc; revert hv1 hv2; decide

/-! ## Lemmas about the string primitives -/

theorem trimChars_eq_nil_iff {l : List Char} :
    trimChars l = [] ↔ ∀ c ∈ l, isPyWs c = true := by
  unfold trimChars
  constructor
  · intro h c hc
    have h2 : (l.dropWhile isPyWs).reverse.dropWhile isPyWs = [] := by
      have := congrArg List.reverse h
      simpa using this
    have hall : ∀ c ∈ (l.dropWhile isPyWs).reverse, isPyWs c = true :=
      List.dropWhile_eq_nil_iff.mp h2
    have hdrop : ∀ c ∈ l.dropWhile isPyWs, isPyWs c = true := by
      intro c hc; exact hall c (List.mem_reverse.mpr hc)
    have hl : l = l.takeWhile isPyWs ++ l.dropWhile isPyWs :=
      (List.takeWhile_append_dropWhile isPyWs l).symm
    rw [hl] at hc
    rcases List.mem_append.mp hc with h1 | h1
    · exact List.mem_takeWhile_imp h1
    · exact hdrop c h1
  · intro h
    have h1 : l.dropWhile isPyWs = [] := List.dropWhile_eq_nil_iff.mpr h
    simp [h1]

theorem trimChars_of_no_ws {l : List Char}
    (h : ∀ c ∈ l, isPyWs c = false) : trimChars l = l := by
  unfold trimChars
  have h1 : l.dropWhile isPyWs = l := by
    cases hl : l with
    | nil => rfl
    | cons c rest =>
      rw [List.dropWhile_cons]
      have := h c (by rw [hl]; exact List.mem_cons_self _ _)
      simp [this, ← hl]
  rw [h1]
  have h2 : l.reverse.dropWhile isPyWs = l.reverse := by
    cases hl : l.reverse with
    | nil => rfl
    | cons c rest =>
      rw [List.dropWhile_cons]
      have hc : c ∈ l := by
        rw [← List.mem_reverse, hl]; exact List.mem_cons_self _ _
      simp [h c hc, ← hl]
  rw [h2, List.reverse_reverse]

theorem splitOnCh_ne_nil (sep : Char) (l : List Char) :
    splitOnCh sep l ≠ [] := by
  induction l with
  | nil => simp [splitOnCh]
  | cons c rest ih =>
    rw [splitOnCh]
    by_cases h : c = sep
    · simp [h]
    · simp only [h, if_false]
      cases hs : splitOnCh sep rest with
      | nil => simp
      | cons p ps => simp

theorem splitOnCh_mem_subset (sep : Char) (l : List Char) :
    ∀ p ∈ splitOnCh sep l, ∀ c ∈ p, c ∈ l := by
  induction l with
  | nil => intro p hp c hc; simp [splitOnCh] at hp; subst hp; simp at hc
  | cons a rest ih =>
    intro p hp c hc
    rw [splitOnCh] at hp
    by_cases h : a = sep
    · simp only [h, if_true] at hp
      rcases List.mem_cons.mp hp with h1 | h1
      · subst h1; simp at hc
      · exact List.mem_cons_of_mem _ (ih p h1 c hc)
    · simp only [h, if_false] at hp
      cases hs : splitOnCh sep rest with
      | nil => exact absurd hs (splitOnCh_ne_nil sep rest)
      | cons q qs =>
        rw [hs] at hp
        rcases List.mem_cons.mp hp with h1 | h1
        · subst h1
          rcases List.mem_cons.mp hc with h2 | h2
          · subst h2; exact List.mem_cons_self _ _
          · exact List.mem_cons_of_mem _ (ih q (by rw [hs]; exact List.mem_cons_self _ _) c h2)
        · exact List.mem_cons_of_mem _
            (ih p (by rw [hs]; exact List.mem_cons_of_mem _ h1) c hc)

theorem splitOnCh_no_sep {sep : Char} {l : List Char}
    (h : ∀ c ∈ l, c ≠ sep) : splitOnCh sep l = [l] := by
  induction l with
  | nil => rfl
  | cons c rest ih =>
    rw [splitOnCh]
    have hc : ¬ c = sep := h c (List.mem_cons_self _ _)
    simp only [hc, if_false]
    rw [ih (fun x hx => h x (List.mem_cons_of_mem _ hx))]

theorem splitOnCh_append_sep {sep : Char} {l₁ l₂ : List Char}
    (h : ∀ c ∈ l₁, c ≠ sep) :
    splitOnCh sep (l₁ ++ sep :: l₂) = l₁ :: splitOnCh sep l₂ := by
  induction l₁ with
  | nil => simp [splitOnCh]
  | cons c rest ih =>
    rw [List.cons_append, splitOnCh]
    have hc : ¬ c = sep := h c (List.mem_cons_self _ _)
    simp only [hc, if_false]
    rw [ih (fun x hx => h x (List.mem_cons_of_mem _ hx))]

/-- An author affiliation string that strips to empty parses to no ids. -/
theorem parseIds_of_strip_empty {s : String} (h : pyStrip s = "") :
    parseIds s = [] := by
  have hws : ∀ c ∈ s.data, isPyWs c = true := by
    have : trimChars s.data = [] := by
      have := congrArg String.data h
      simpa [pyStrip] using this
    exact trimChars_eq_nil_iff.mp this
  unfold parseIds
  rw [List.filter_eq_nil_iff]
  intro x hx
  rcases List.mem_map.mp hx with ⟨p, hp, hmk⟩
  have : trimChars p = [] := by
    apply trimChars_eq_nil_iff.mpr
    intro c hc
    exact hws c (splitOnCh_mem_subset ',' s.data p hp c hc)
  simp [← hmk, this]

/-- Tokens that are nonempty, whitespace-free and comma-free survive a
join-then-parse round trip. -/
theorem parseIds_joinComma {ids : List String}
    (h : ∀ s ∈ ids, s.data ≠ [] ∧ ∀ c ∈ s.data, isPyWs c = false ∧ c ≠ ',') :
    parseIds (joinComma ids) = ids := by
  induction ids with
  | nil => rfl
  | cons s rest ih =>
    have hs := h s (List.mem_cons_self _ _)
    have hnosep : ∀ c ∈ s.data, c ≠ ',' := fun c hc => (hs.2 c hc).2
    have hnows : ∀ c ∈ s.data, isPyWs c = false := fun c hc => (hs.2 c hc).1
    have htrim : trimChars s.data = s.data := trimChars_of_no_ws hnows
    cases rest with
    | nil =>
      unfold parseIds joinComma
      simp only [List.map, joinWith]
      rw [splitOnCh_no_sep hnosep]
      simp only [List.map, htrim]
      have hne : ¬ (String.mk s.data = "") := by
        intro hh
        exact hs.1 (by simpa using congrArg String.data hh)
      simp [List.filter, hne]
    | cons s2 rest2 =>
      have ih2 := ih (fun x hx => h x (List.mem_cons_of_mem _ hx))
      unfold parseIds joinComma at ih2 ⊢
      simp only [List.map, joinWith]
      rw [splitOnCh_append_sep hnosep]
      simp only [List.map, htrim]
      have hne : ¬ (String.mk s.data = "") := by
        intro hh
        exact hs.1 (by simpa using congrArg String.data hh)
      rw [List.filter]
      simp only [hne, decide_eq_true_eq, decide_not]
      simp only [List.map, joinWith] at ih2
      simp_all

/-! ## Characterizing the engine loops -/

/-- State evolution of the inner loops as a single fold over the
reference stream. -/
def foldOids (amap : AMap) (st : RenState) : List (String × String) → RenState
  | [] => st
  | (alast, oid) :: rest => foldOids amap (processOid amap alast st oid).1 rest

theorem processIds_state (amap : AMap) (alast : String)
    (ids : List String) : ∀ st : RenState,
    (processIds amap alast st ids).1 =
      foldOids amap st (ids.map (fun oid => (alast, oid))) := by
  induction ids with
  | nil => intro st; rfl
  | cons oid rest ih =>
    intro st
    simp only [processIds, List.map, foldOids]
    exact ih _

theorem foldOids_append (amap : AMap) (l₁ l₂ : List (String × String)) :
    ∀ st, foldOids amap st (l₁ ++ l₂) = foldOids amap (foldOids amap st l₁) l₂ := by
  induction l₁ with
  | nil => intro st; rfl
  | cons p rest ih =>
    intro st
    cases p
    simp only [List.cons_append, foldOids]
    exact ih _

theorem processAuthors_state (amap : AMap) (names : List Author) :
    ∀ st : RenState,
    (processAuthors amap st names).1 = foldOids amap st (flatRefs names) := by
  induction names with
  | nil => intro st; rfl
  | cons a rest ih =>
    intro st
    simp only [processAuthors, flatRefs, List.flatMap_cons]
    by_cases h : pyStrip a.affils = ""
    · simp only [h, if_true]
      rw [parseIds_of_strip_empty h]
      simp only [List.map_nil, List.nil_append]
      exact ih st
    · simp only [h, if_false]
      rw [foldOids_append, ← processIds_state]
      exact ih _

theorem dedupSeen_congr {s₁ s₂ : List String} (h : ∀ x, x ∈ s₁ ↔ x ∈ s₂) :
    ∀ l, dedupSeen s₁ l = dedupSeen s₂ l := by
  intro l
  induction l generalizing s₁ s₂ with
  | nil => rfl
  | cons x xs ih =>
    simp only [dedupSeen]
    rw [if_congr (h x) rfl rfl]
    by_cases hx : x ∈ s₂
    · simp only [hx, if_true]; exact ih h
    · simp only [hx, if_false]
      congr 1
      apply ih
      intro y; simp [h y]

theorem warnsFor_congr {amap : AMap} {s₁ s₂ : List String}
    (h : ∀ x, x ∈ s₁ ↔ x ∈ s₂) :
    ∀ l, warnsFor amap s₁ l = warnsFor amap s₂ l := by
  intro l
  induction l generalizing s₁ s₂ with
  | nil => rfl
  | cons p xs ih =>
    cases p with
    | mk alast oid =>
      simp only [warnsFor]
      rw [if_congr (h oid) rfl rfl]
      by_cases hx : oid ∈ s₂
      · simp only [hx, if_true]; exact ih h
      · simp only [hx, if_false]
        cases amap.lookup oid with
        | none =>
          simp only []
          congr 1
          apply ih
          intro y; simp [h y]
        | some t =>
          simp only []
          apply ih
          intro y; simp [h y]

theorem orphanSpec_congr {s₁ s₂ : List String} (h : ∀ x, x ∈ s₁ ↔ x ∈ s₂) :
    ∀ (n : Nat) (amap : AMap), orphanSpec s₁ n amap = orphanSpec s₂ n amap := by
  intro n amap
  induction amap generalizing s₁ s₂ n with
  | nil => rfl
  | cons p rest ih =>
    cases p with
    | mk oid t =>
      simp only [orphanSpec]
      rw [if_congr (h oid) rfl rfl]
      by_cases hx : oid ∈ s₂
      · simp only [hx, if_true]; exact ih h n
      · simp only [hx, if_false]
        have : orphanSpec (oid :: s₁) (n + 1) rest = orphanSpec (oid :: s₂) (n + 1) rest := by
          apply ih
          intro y; simp [h y]
        rw [this]

/-- Full characterization of the reference-stream fold: starting from any
state, the fold appends the RemapTable entries, output affiliations and
warnings described by the specification-side functions, and advances the
counter once per newly discovered present id. -/
theorem foldOids_char (amap : AMap) (l : List (String × String)) :
    ∀ st : RenState,
      foldOids amap st l =
        ⟨st.remap ++ newIdsFor amap st.nextId
            (dedupSeen (st.remap.map Prod.fst) (l.map Prod.snd)),
          st.newAffils ++ newAffilsFor amap st.nextId
            (dedupSeen (st.remap.map Prod.fst) (l.map Prod.snd)),
          st.nextId + presentCount amap
            (dedupSeen (st.remap.map Prod.fst) (l.map Prod.snd)),
          st.warnings ++ warnsFor amap (st.remap.map Prod.fst) l⟩ := by
  induction l with
  | nil =>
    intro st
    simp [foldOids, dedupSeen, newIdsFor, newAffilsFor, presentCount, warnsFor]
  | cons p rest ih =>
    intro st
    cases p with
    | mk alast oid =>
      simp only [foldOids, List.map_cons]
      rw [processOid]
      cases hlk : st.remap.lookup oid with
      | some nid =>
        have hmem : oid ∈ st.remap.map Prod.fst :=
          lookup_isSome_iff.mp (by simp [hlk])
        simp only [dedupSeen, warnsFor, hmem, if_true]
        exact ih st
      | none =>
        have hmem : oid ∉ st.remap.map Prod.fst := by
          intro hc
          have := lookup_isSome_iff.mpr hc
          simp [hlk] at this
        simp only [dedupSeen, warnsFor, hmem, if_false]
        cases ham : amap.lookup oid with
        | none =>
          simp only []
          rw [ih]
          have hkeys : ((st.remap ++ [(oid, oid)]).map Prod.fst) =
              st.remap.map Prod.fst ++ [oid] := by simp
          have hseen : ∀ x, x ∈ (st.remap ++ [(oid, oid)]).map Prod.fst ↔
              x ∈ oid :: st.remap.map Prod.fst := by
            intro x; rw [hkeys]; simp [or_comm]
          rw [dedupSeen_congr hseen, warnsFor_congr hseen]
          simp only [newIdsFor, newAffilsFor, presentCount, ham,
            List.filter_cons, RenState.mk.injEq]
          refine ⟨by simp, by simp, by simp, by simp⟩
        | some t =>
          simp only []
          rw [ih]
          have hkeys : ((st.remap ++ [(oid, natToStr st.nextId)]).map Prod.fst) =
              st.remap.map Prod.fst ++ [oid] := by simp
          have hseen : ∀ x, x ∈ (st.remap ++ [(oid, natToStr st.nextId)]).map Prod.fst ↔
              x ∈ oid :: st.remap.map Prod.fst := by
            intro x; rw [hkeys]; simp [or_comm]
          rw [dedupSeen_congr hseen, warnsFor_congr hseen]
          simp only [newIdsFor, newAffilsFor, presentCount, ham,
            List.filter_cons, RenState.mk.injEq]
          refine ⟨by simp, by simp, by simp [Nat.add_assoc, Nat.add_comm 1], by simp⟩

/-- Full characterization of the orphan pass. -/
theorem orphanPass_char (amap : AMap) :
    ∀ st : RenState,
      orphanPass st amap =
        ⟨st.remap ++ (orphanSpec (st.remap.map Prod.fst) st.nextId amap).1,
          st.newAffils ++ (orphanSpec (st.remap.map Prod.fst) st.nextId amap).2,
          st.nextId + (orphanSpec (st.remap.map Prod.fst) st.nextId amap).2.length,
          st.warnings⟩ := by
  induction amap with
  | nil => intro st; simp [orphanPass, orphanSpec]
  | cons p rest ih =>
    intro st
    cases p with
    | mk oid t =>
      rw [orphanPass]
      cases hlk : st.remap.lookup oid with
      | some nid =>
        have hmem : oid ∈ st.remap.map Prod.fst :=
          lookup_isSome_iff.mp (by simp [hlk])
        simp only [hlk, Option.isSome_some, if_true, orphanSpec, hmem]
        exact ih st
      | none =>
        have hmem : oid ∉ st.remap.map Prod.fst := by
          intro hc
          have := lookup_isSome_iff.mpr hc
          simp [hlk] at this
        have hcong : orphanSpec (st.remap.map Prod.fst ++ [oid]) (st.nextId + 1) rest
            = orphanSpec (oid :: st.remap.map Prod.fst) (st.nextId + 1) rest := by
          apply orphanSpec_congr
          intro x; simp [or_comm]
        simp only [hlk, Option.isSome_none, Bool.false_eq_true, if_false]
        rw [ih]
        simp only [List.map_append, List.map_cons, List.map_nil, hcong]
        simp only [orphanSpec, hmem, if_false, RenState.mk.injEq]
        refine ⟨?_, ?_, ?_, ?_⟩ <;>
          first
            | trivial
            | (simp [List.append_assoc]; done)
            | (simp only [List.length_cons]; omega)

/-! ## The rewritten author list -/

/-- Rewriting one author through a RemapTable: substitute each parsed id by
its table value (authors whose affiliation string strips to empty are kept
verbatim). -/
def rewriteWith (R : List (String × String)) (a : Author) : Author :=
  if pyStrip a.affils = "" then a
  else
    { a with
        affils := joinComma ((parseIds a.affils).map
          (fun oid => ((R.lookup oid).getD oid))) }

theorem processOid_lookup (amap : AMap) (alast : String) (st : RenState)
    (oid : String) :
    (processOid amap alast st oid).1.remap.lookup oid =
      some (processOid amap alast st oid).2 := by
  rw [processOid]
  cases hlk : st.remap.lookup oid with
  | some nid => exact hlk
  | none =>
    cases ham : amap.lookup oid with
    | none => exact lookup_singleton_append hlk
    | some t => exact lookup_singleton_append hlk

theorem processOid_mono (amap : AMap) (alast : String) (st : RenState)
    (oid : String) :
    ∃ δ, (processOid amap alast st oid).1.remap = st.remap ++ δ := by
  rw [processOid]
  cases hlk : st.remap.lookup oid with
  | some nid => exact ⟨[], by simp⟩
  | none =>
    cases ham : amap.lookup oid with
    | none => exact ⟨[(oid, oid)], rfl⟩
    | some t => exact ⟨[(oid, natToStr st.nextId)], rfl⟩

theorem processIds_mono (amap : AMap) (alast : String) (ids : List String) :
    ∀ st : RenState,
      ∃ δ, (processIds amap alast st ids).1.remap = st.remap ++ δ := by
  induction ids with
  | nil => intro st; exact ⟨[], by simp [processIds]⟩
  | cons oid rest ih =>
    intro st
    obtain ⟨δ₁, h₁⟩ := processOid_mono amap alast st oid
    obtain ⟨δ₂, h₂⟩ := ih (processOid amap alast st oid).1
    exact ⟨δ₁ ++ δ₂, by simp [processIds, h₂, h₁, List.append_assoc]⟩

theorem processIds_out (amap : AMap) (alast : String) (ids : List String) :
    ∀ st : RenState,
      (processIds amap alast st ids).2 =
        ids.map (fun oid =>
          (((processIds amap alast st ids).1.remap.lookup oid).getD oid)) := by
  induction ids with
  | nil => intro st; rfl
  | cons oid rest ih =>
    intro st
    simp only [processIds, List.map_cons, List.cons.injEq]
    constructor
    · obtain ⟨δ, hδ⟩ := processIds_mono amap alast rest (processOid amap alast st oid).1
      have hl := processOid_lookup amap alast st oid
      rw [hδ, lookup_append_some hl]
      rfl
    · exact ih _

theorem processIds_lookup_isSome (amap : AMap) (alast : String)
    (ids : List String) :
    ∀ st : RenState, ∀ oid ∈ ids,
      ((processIds amap alast st ids).1.remap.lookup oid).isSome = true := by
  induction ids with
  | nil => intro st oid h; simp at h
  | cons x rest ih =>
    intro st oid h
    rcases List.mem_cons.mp h with h1 | h1
    · simp only [processIds]
      obtain ⟨δ, hδ⟩ := processIds_mono amap alast rest (processOid amap alast st x).1
      have hl := processOid_lookup amap alast st x
      rw [h1, hδ, lookup_append_some hl]
      rfl
    · simp only [processIds]
      exact ih _ oid h1

theorem processAuthors_mono (amap : AMap) (names : List Author) :
    ∀ st : RenState,
      ∃ δ, (processAuthors amap st names).1.remap = st.remap ++ δ := by
  intro st
  rw [processAuthors_state]
  rw [foldOids_char]
  exact ⟨_, rfl⟩

/-- The output author list equals the input list rewritten through the
RemapTable as it stands at the end of the author pass. -/
theorem processAuthors_out (amap : AMap) (names : List Author) :
    ∀ st : RenState,
      (processAuthors amap st names).2 =
        names.map (rewriteWith (processAuthors amap st names).1.remap) := by
  induction names with
  | nil => intro st; rfl
  | cons a rest ih =>
    intro st
    simp only [processAuthors, List.map_cons]
    by_cases h : pyStrip a.affils = ""
    · simp only [h, if_true, List.cons.injEq]
      constructor
      · rw [rewriteWith, if_pos h]
      · exact ih st
    · simp only [h, if_false, List.cons.injEq]
      constructor
      · rw [rewriteWith, if_neg h]
        have hout := processIds_out amap a.last (parseIds a.affils) st
        obtain ⟨δ, hδ⟩ := processAuthors_mono amap rest
          (processIds amap a.last st (parseIds a.affils)).1
        have : (processIds amap a.last st (parseIds a.affils)).2 =
            (parseIds a.affils).map (fun oid =>
              (((processAuthors amap
                (processIds amap a.last st (parseIds a.affils)).1 rest).1.remap.lookup
                  oid).getD oid)) := by
          rw [hout]
          apply List.map_congr_left
          intro oid hm
          have hs := processIds_lookup_isSome amap a.last (parseIds a.affils) st oid hm
          obtain ⟨v, hv⟩ := Option.isSome_iff_exists.mp hs
          rw [hδ, hv, lookup_append_some hv]
        rw [this]
      · exact ih _

/-! ## Spec-side structure lemmas -/

theorem mem_dedupSeen {x : String} :
    ∀ {seen l : List String}, x ∈ dedupSeen seen l ↔ x ∈ l ∧ x ∉ seen := by
  intro seen l
  induction l generalizing seen with
  | nil => simp [dedupSeen]
  | cons y ys ih =>
    simp only [dedupSeen]
    by_cases hy : y ∈ seen
    · simp only [hy, if_true, ih, List.mem_cons]
      constructor
      · rintro ⟨h1, h2⟩; exact ⟨Or.inr h1, h2⟩
      · rintro ⟨h1 | h1, h2⟩
        · subst h1; exact absurd hy h2
        · exact ⟨h1, h2⟩
    · simp only [hy, if_false, List.mem_cons, ih]
      constructor
      · rintro (h1 | ⟨h1, h2⟩)
        · subst h1; exact ⟨Or.inl rfl, hy⟩
        · refine ⟨Or.inr h1, fun hc => h2 (Or.inr hc)⟩
      · rintro ⟨h1 | h1, h2⟩
        · subst h1; exact Or.inl rfl
        · by_cases hx : x = y
          · exact Or.inl hx
          · exact Or.inr ⟨h1, by simp [hx, h2]⟩

theorem dedupSeen_nodup : ∀ (seen l : List String), (dedupSeen seen l).Nodup := by
  intro seen l
  induction l generalizing seen with
  | nil => simp [dedupSeen]
  | cons y ys ih =>
    simp only [dedupSeen]
    by_cases hy : y ∈ seen
    · simp only [hy, if_true]; exact ih seen
    · simp only [hy, if_false, List.nodup_cons]
      refine ⟨fun hc => ?_, ih _⟩
      have := mem_dedupSeen.mp hc
      exact this.2 (List.mem_cons_self _ _)

theorem newIdsFor_keys (amap : AMap) :
    ∀ (n : Nat) (d : List String), (newIdsFor amap n d).map Prod.fst = d := by
  intro n d
  induction d generalizing n with
  | nil => rfl
  | cons oid rest ih =>
    rw [newIdsFor]
    cases amap.lookup oid with
    | none => simp [ih]
    | some t => simp [ih]

theorem newAffilsFor_ids (amap : AMap) :
    ∀ (n : Nat) (d : List String),
      (newAffilsFor amap n d).map Prod.fst =
        (List.range' n (presentCount amap d)).map natToStr := by
  intro n d
  induction d generalizing n with
  | nil => rfl
  | cons oid rest ih =>
    rw [newAffilsFor]
    cases hlk : amap.lookup oid with
    | none => simp [ih, presentCount, List.filter_cons, hlk]
    | some t =>
      simp only [List.map_cons, ih, presentCount, List.filter_cons, hlk,
        Option.isSome_some, if_true, List.length_cons]
      rw [List.range'_succ]
      simp

theorem newAffilsFor_length (amap : AMap) (n : Nat) (d : List String) :
    (newAffilsFor amap n d).length = presentCount amap d := by
  have := congrArg List.length (newAffilsFor_ids amap n d)
  simpa using this

theorem orphanSpec_ids :
    ∀ (amap : AMap) (seen : List String) (n : Nat),
      (orphanSpec seen n amap).2.map Prod.fst =
        (List.range' n (orphanSpec seen n amap).2.length).map natToStr := by
  intro amap
  induction amap with
  | nil => intro seen n; rfl
  | cons p rest ih =>
    intro seen n
    cases p with
    | mk oid t =>
      rw [orphanSpec]
      by_cases h : oid ∈ seen
      · simp only [h, if_true]; exact ih seen n
      · simp only [h, if_false, List.map_cons, List.length_cons]
        rw [List.range'_succ]
        simp [ih (oid :: seen) (n + 1)]

theorem orphanSpec_remap_values :
    ∀ (amap : AMap) (seen : List String) (n : Nat),
      (orphanSpec seen n amap).1.map Prod.snd =
        (List.range' n (orphanSpec seen n amap).2.length).map natToStr := by
  intro amap
  induction amap with
  | nil => intro seen n; rfl
  | cons p rest ih =>
    intro seen n
    cases p with
    | mk oid t =>
      rw [orphanSpec]
      by_cases h : oid ∈ seen
      · simp only [h, if_true]; exact ih seen n
      · simp only [h, if_false, List.map_cons, List.length_cons]
        rw [List.range'_succ]
        simp [ih (oid :: seen) (n + 1)]

theorem orphanSpec_keys_not_seen :
    ∀ (amap : AMap) (seen : List String) (n : Nat),
      ∀ k ∈ (orphanSpec seen n amap).1.map Prod.fst, k ∉ seen := by
  intro amap
  induction amap with
  | nil => intro seen n k hk; simp [orphanSpec] at hk
  | cons p rest ih =>
    intro seen n k hk
    cases p with
    | mk oid t =>
      rw [orphanSpec] at hk
      by_cases h : oid ∈ seen
      · simp only [h, if_true] at hk; exact ih seen n k hk
      · simp only [h, if_false, List.map_cons] at hk
        rcases List.mem_cons.mp hk with h1 | h1
        · subst h1; exact h
        · have := ih (oid :: seen) (n + 1) k h1
          intro hc; exact this (List.mem_cons_of_mem _ hc)

theorem orphanSpec_mem :
    ∀ (amap : AMap) (seen : List String) (n : Nat),
      ∀ p ∈ (orphanSpec seen n amap).2,
        ∃ oid, oid ∉ seen ∧ amap.lookup oid = some p.2 ∧
          (orphanSpec seen n amap).1.lookup oid = some p.1 := by
  intro amap
  induction amap with
  | nil => intro seen n p hp; simp [orphanSpec] at hp
  | cons q rest ih =>
    intro seen n p hp
    cases q with
    | mk oid t =>
      rw [orphanSpec] at hp ⊢
      by_cases h : oid ∈ seen
      · simp only [h, if_true] at hp ⊢
        obtain ⟨o, ho1, ho2, ho3⟩ := ih seen n p hp
        refine ⟨o, ho1, ?_, ho3⟩
        rw [List.lookup]
        have : ¬ (o == oid) = true := by
          intro hc
          exact ho1 (beq_iff_eq.mp hc ▸ h)
        simp only [Bool.not_eq_true] at this
        rw [this]
        exact ho2
      · simp only [h, if_false] at hp ⊢
        rcases List.mem_cons.mp hp with h1 | h1
        · subst h1
          refine ⟨oid, h, ?_, ?_⟩
          · rw [List.lookup]; simp
          · rw [List.lookup]; simp
        · obtain ⟨o, ho1, ho2, ho3⟩ := ih (oid :: seen) (n + 1) p h1
          have hne : o ≠ oid := fun hc => ho1 (hc ▸ List.mem_cons_self _ _)
          refine ⟨o, fun hc => ho1 (List.mem_cons_of_mem _ hc), ?_, ?_⟩
          · rw [List.lookup]
            have : ¬ (o == oid) = true := fun hc => hne (beq_iff_eq.mp hc)
            simp only [Bool.not_eq_true] at this
            rw [this]
            exact ho2
          · rw [List.lookup]
            have : ¬ (o == oid) = true := fun hc => hne (beq_iff_eq.mp hc)
            simp only [Bool.not_eq_true] at this
            rw [this]
            exact ho3

theorem flatRefs_snd (names : List Author) :
    (flatRefs names).map Prod.snd = refsOf names := by
  induction names with
  | nil => rfl
  | cons a rest ih =>
    simp only [flatRefs, refsOf, List.flatMap_cons, List.map_append,
      List.map_map] at ih ⊢
    rw [ih]
    congr 1
    simp [Function.comp]

/-! ## Closed forms for the engine -/

/-- The engine state at the end of the author pass. -/
def authorsState (names : List Author) (amap : AMap) : RenState :=
  (processAuthors amap renInit names).1

theorem authorsState_char (names : List Author) (amap : AMap) :
    authorsState names amap =
      ⟨newIdsFor amap 1 (usedIds names),
        newAffilsFor amap 1 (usedIds names),
        1 + presentCount amap (usedIds names),
        warnsFor amap [] (flatRefs names)⟩ := by
  unfold authorsState
  rw [processAuthors_state, foldOids_char]
  simp [renInit, flatRefs_snd, usedIds]

theorem renFinal_char (names : List Author) (amap : AMap) :
    renFinal names amap =
      ⟨newIdsFor amap 1 (usedIds names) ++
          (orphanSpec (usedIds names)
            (1 + presentCount amap (usedIds names)) amap).1,
        newAffilsFor amap 1 (usedIds names) ++
          (orphanSpec (usedIds names)
            (1 + presentCount amap (usedIds names)) amap).2,
        1 + presentCount amap (usedIds names) +
          (orphanSpec (usedIds names)
            (1 + presentCount amap (usedIds names)) amap).2.length,
        warnsFor amap [] (flatRefs names)⟩ := by
  unfold renFinal
  have h := authorsState_char names amap
  unfold authorsState at h
  rw [h, orphanPass_char]
  simp [newIdsFor_keys]

/-- The rewritten author list can be read off the final RemapTable. -/
theorem renumber_out (names : List Author) (amap : AMap) :
    (renumber_affiliations names amap).2 =
      names.map (rewriteWith (renFinal names amap).remap) := by
  unfold renumber_affiliations
  rw [processAuthors_out]
  apply List.map_congr_left
  intro a ha
  unfold rewriteWith
  by_cases h : pyStrip a.affils = ""
  · simp [h]
  · simp only [h, if_false, Author.mk.injEq, and_true, true_and]
    congr 1
    apply List.map_congr_left
    intro oid hm
    have hmem : oid ∈ usedIds names := by
      apply mem_dedupSeen.mpr
      refine ⟨?_, by simp⟩
      unfold refsOf
      exact List.mem_flatMap.mpr ⟨a, ha, hm⟩
    have hkeys : ((processAuthors amap renInit names).1.remap.lookup oid).isSome = true := by
      apply lookup_isSome_iff.mpr
      have hc := authorsState_char names amap
      unfold authorsState at hc
      rw [hc]
      simpa [newIdsFor_keys] using hmem
    obtain ⟨v, hv⟩ := Option.isSome_iff_exists.mp hkeys
    have hfin : (renFinal names amap).remap.lookup oid = some v := by
      unfold renFinal
      rw [orphanPass_char]
      exact lookup_append_some hv
    rw [hv, hfin]

theorem range'_add (s m n : Nat) :
    List.range' s (m + n) = List.range' s m ++ List.range' (s + m) n := by
  induction m generalizing s with
  | zero => simp
  | succ m ih =>
    have h1 : s + (m + 1) + n = s + 1 + (m + n) := by omega
    have h2 : s + (m + 1) = s + 1 + m := by omega
    rw [Nat.succ_add, List.range'_succ, ih (s + 1), List.range'_succ, h2]
    rfl

theorem newIdsFor_lookup_absent (amap : AMap) :
    ∀ (n : Nat) (d : List String), d.Nodup → ∀ oid ∈ d,
      amap.lookup oid = none → (newIdsFor amap n d).lookup oid = some oid := by
  intro n d
  induction d generalizing n with
  | nil => intro _ oid h; simp at h
  | cons x rest ih =>
    intro hnd oid hmem habs
    rw [newIdsFor]
    rcases List.mem_cons.mp hmem with h1 | h1
    · subst h1
      rw [habs, List.lookup]
      simp
    · have hne : oid ≠ x := by
        intro hc; subst hc
        exact (List.nodup_cons.mp hnd).1 h1
      cases hlk : amap.lookup x with
      | none =>
        rw [List.lookup]
        have : (oid == x) = false := by simp [hne]
        rw [this]
        exact ih n (List.nodup_cons.mp hnd).2 oid h1 habs
      | some t =>
        rw [List.lookup]
        have : (oid == x) = false := by simp [hne]
        rw [this]
        exact ih (n + 1) (List.nodup_cons.mp hnd).2 oid h1 habs

theorem newAffilsFor_mem (amap : AMap) :
    ∀ (n : Nat) (d : List String), d.Nodup →
      ∀ p ∈ newAffilsFor amap n d,
        ∃ oid, amap.lookup oid = some p.2 ∧
          (newIdsFor amap n d).lookup oid = some p.1 := by
  intro n d
  induction d generalizing n with
  | nil => intro _ p hp; simp [newAffilsFor] at hp
  | cons x rest ih =>
    intro hnd p hp
    rw [newAffilsFor] at hp
    rw [newIdsFor]
    cases hlk : amap.lookup x with
    | none =>
      rw [hlk] at hp
      obtain ⟨o, ho1, ho2⟩ := ih n (List.nodup_cons.mp hnd).2 p hp
      have hne : o ≠ x := by
        intro hc; subst hc
        have hsome : (List.lookup o (newIdsFor amap n rest)).isSome = true := by
          rw [ho2]; rfl
        have := lookup_isSome_iff.mp hsome
        rw [newIdsFor_keys] at this
        exact (List.nodup_cons.mp hnd).1 this
      refine ⟨o, ho1, ?_⟩
      rw [List.lookup]
      have : (o == x) = false := by simp [hne]
      rw [this]
      exact ho2
    | some t =>
      rw [hlk] at hp
      rcases List.mem_cons.mp hp with h1 | h1
      · subst h1
        refine ⟨x, hlk, ?_⟩
        rw [List.lookup]; simp
      · obtain ⟨o, ho1, ho2⟩ := ih (n + 1) (List.nodup_cons.mp hnd).2 p h1
        have hne : o ≠ x := by
          intro hc; subst hc
          have hsome : (List.lookup o (newIdsFor amap (n + 1) rest)).isSome = true := by
            rw [ho2]; rfl
          have := lookup_isSome_iff.mp hsome
          rw [newIdsFor_keys] at this
          exact (List.nodup_cons.mp hnd).1 this
        refine ⟨o, ho1, ?_⟩
        rw [List.lookup]
        have : (o == x) = false := by simp [hne]
        rw [this]
        exact ho2

theorem warnsFor_mem (amap : AMap) :
    ∀ (l : List (String × String)) (seen : List String),
      ∀ w ∈ warnsFor amap seen l,
        amap.lookup w.2 = none ∧ w.2 ∈ dedupSeen seen (l.map Prod.snd) := by
  intro l
  induction l with
  | nil => intro seen w hw; simp [warnsFor] at hw
  | cons p rest ih =>
    intro seen w hw
    cases p with
    | mk alast oid =>
      rw [warnsFor] at hw
      simp only [List.map_cons, dedupSeen]
      by_cases h : oid ∈ seen
      · simp only [h, if_true] at hw ⊢
        exact ih seen w hw
      · simp only [h, if_false] at hw ⊢
        cases hlk : amap.lookup oid with
        | none =>
          rw [hlk] at hw
          rcases List.mem_cons.mp hw with h1 | h1
          · subst h1
            exact ⟨hlk, List.mem_cons_self _ _⟩
          · obtain ⟨h2, h3⟩ := ih (oid :: seen) w h1
            exact ⟨h2, List.mem_cons_of_mem _ h3⟩
        | some t =>
          rw [hlk] at hw
          obtain ⟨h2, h3⟩ := ih (oid :: seen) w hw
          exact ⟨h2, List.mem_cons_of_mem _ h3⟩

theorem presentCount_all {amap : AMap} {d : List String}
    (h : ∀ x ∈ d, (amap.lookup x).isSome = true) :
    presentCount amap d = d.length := by
  unfold presentCount
  rw [List.filter_eq_self.mpr]
  intro a ha
  exact h a ha

/-- The orphan candidates: mapping entries whose key is not in `seen`,
in mapping order. -/
def orphansOf (seen : List String) (amap : AMap) : AMap :=
  amap.filter (fun p => decide (p.1 ∉ seen))

theorem orphanSpec_of_nodup {amap : AMap} (hnd : (amap.map Prod.fst).Nodup) :
    ∀ (seen : List String) (n : Nat),
      (orphanSpec seen n amap).2 =
        List.zipWith (fun k p => (natToStr k, p.2))
          (List.range' n (orphansOf seen amap).length) (orphansOf seen amap) := by
  induction amap with
  | nil => intro seen n; rfl
  | cons q rest ih =>
    intro seen n
    cases q with
    | mk oid t =>
      have hnd2 : (rest.map Prod.fst).Nodup := (List.nodup_cons.mp (by simpa using hnd)).2
      have hnotin : oid ∉ rest.map Prod.fst := (List.nodup_cons.mp (by simpa using hnd)).1
      rw [orphanSpec]
      by_cases h : oid ∈ seen
      · simp only [h, if_true]
        rw [ih hnd2 seen n]
        have : orphansOf seen ((oid, t) :: rest) = orphansOf seen rest := by
          unfold orphansOf
          rw [List.filter_cons]
          simp [h]
        rw [this]
      · simp only [h, if_false]
        rw [ih hnd2 (oid :: seen) (n + 1)]
        have h1 : orphansOf seen ((oid, t) :: rest) = (oid, t) :: orphansOf seen rest := by
          unfold orphansOf
          rw [List.filter_cons]
          simp [h]
        have h2 : orphansOf (oid :: seen) rest = orphansOf seen rest := by
          unfold orphansOf
          apply List.filter_congr
          intro p hp
          have : p.1 ≠ oid := by
            intro hc
            exact hnotin (hc ▸ List.mem_map_of_mem Prod.fst hp)
          simp [this]
        rw [h1, h2, List.length_cons, List.range'_succ]
        rfl

theorem orphanSpec_all_seen {amap : AMap} {seen : List String}
    (h : ∀ k ∈ amap.map Prod.fst, k ∈ seen) :
    ∀ n, orphanSpec seen n amap = ([], []) := by
  induction amap with
  | nil => intro n; rfl
  | cons q rest ih =>
    intro n
    cases q with
    | mk oid t =>
      rw [orphanSpec]
      have : oid ∈ seen := h oid (by simp)
      simp only [this, if_true]
      exact ih (fun k hk => h k (List.mem_cons_of_mem _ hk)) n

theorem newIdsFor_values_present {amap : AMap} :
    ∀ (n : Nat) (d : List String),
      (∀ x ∈ d, (amap.lookup x).isSome = true) →
      (newIdsFor amap n d).map Prod.snd = (List.range' n d.length).map natToStr := by
  intro n d
  induction d generalizing n with
  | nil => intro _; rfl
  | cons x rest ih =>
    intro h
    rw [newIdsFor]
    cases hlk : amap.lookup x with
    | none =>
      have := h x (List.mem_cons_self _ _)
      simp [hlk] at this
    | some t =>
      simp only [List.map_cons, List.length_cons]
      rw [List.range'_succ]
      simp only [List.map_cons, List.cons.injEq]
      exact ⟨trivial, ih (n + 1) (fun y hy => h y (List.mem_cons_of_mem _ hy))⟩

/-! ## Claims about the renumbering engine -/

/-- **C1.** The engine processes authors in list order and their references in
order: the output author list is exactly the input list with each author's
reference list rewritten through the final RemapTable (order and count
preserved, no deduplication, authors with blank reference strings untouched);
the author pass appends one output affiliation per newly discovered present id
(`newAffilsFor` over the first-appearance deduplication of the reference
stream); the output affiliation list carries the sequential ids 1,2,… in
assignment order; and every appended pair is `(new_id, original_text)` for
some original id mapped to `new_id` by the RemapTable. -/
theorem c1_engine_functional (names : List Author) (amap : AMap) :
    (renumber_affiliations names amap).2 =
      names.map (rewriteWith (renFinal names amap).remap) ∧
    (authorsState names amap).newAffils = newAffilsFor amap 1 (usedIds names) ∧
    (renumber_affiliations names amap).1.map Prod.fst =
      (List.range' 1 (renumber_affiliations names amap).1.length).map natToStr ∧
    ∀ p ∈ (renumber_affiliations names amap).1,
      ∃ oid, amap.lookup oid = some p.2 ∧
        (renFinal names amap).remap.lookup oid = some p.1 := by
  refine ⟨renumber_out names amap, by rw [authorsState_char], ?_, ?_⟩
  · show (renFinal names amap).newAffils.map Prod.fst =
      (List.range' 1 (renFinal names amap).newAffils.length).map natToStr
    rw [renFinal_char]
    simp only [List.map_append, List.length_append]
    rw [newAffilsFor_ids, orphanSpec_ids, newAffilsFor_length,
      ← List.map_append, ← range'_add]
  · intro p hp
    have hp2 : p ∈ newAffilsFor amap 1 (usedIds names) ++
        (orphanSpec (usedIds names)
          (1 + presentCount amap (usedIds names)) amap).2 := by
      have hp3 : p ∈ (renFinal names amap).newAffils := hp
      rw [renFinal_char] at hp3
      exact hp3
    rcases List.mem_append.mp hp2 with h1 | h1
    · obtain ⟨oid, ho1, ho2⟩ :=
        newAffilsFor_mem amap 1 (usedIds names) (dedupSeen_nodup _ _) p h1
      refine ⟨oid, ho1, ?_⟩
      rw [renFinal_char]
      exact lookup_append_some ho2
    · obtain ⟨oid, hno, ho1, ho2⟩ :=
        orphanSpec_mem amap (usedIds names)
          (1 + presentCount amap (usedIds names)) p h1
      refine ⟨oid, ho1, ?_⟩
      rw [renFinal_char]
      have hnone : (newIdsFor amap 1 (usedIds names)).lookup oid = none := by
        cases hx : (newIdsFor amap 1 (usedIds names)).lookup oid with
        | none => rfl
        | some v =>
          exfalso
          have : oid ∈ (newIdsFor amap 1 (usedIds names)).map Prod.fst :=
            lookup_isSome_iff.mp (by rw [hx]; rfl)
          rw [newIdsFor_keys] at this
          exact hno this
      rw [lookup_append_none hnone]
      exact ho2

/-- **C1** witness: on a one-author, one-affiliation input, the origin
property instantiates to a concrete provable fact. -/
theorem c1_engine_functional_witness :
    ∃ oid, ([("1", "MIT")] : AMap).lookup oid = some "MIT" ∧
      (renFinal [⟨"Doe", "Jane", "1"⟩] [("1", "MIT")]).remap.lookup oid =
        some "1" := by
  have h := c1_engine_functional [⟨"Doe", "Jane", "1"⟩] [("1", "MIT")]
  exact h.2.2.2 ("1", "MIT") (by decide)

/-- **C3** (counterexample). With one author referencing the absent id "5",
the count of distinct referenced ids is K = 1, yet no new id at all is
assigned to the output affiliation list, so the assigned set is empty and
differs from `{1}` = `{1..K}`. -/
theorem c3_counterexample :
    (usedIds [⟨"A", "B", "5"⟩]).length = 1 ∧
    (renumber_affiliations [⟨"A", "B", "5"⟩] []).1.map Prod.fst = [] ∧
    natToStr 1 ∉ (renumber_affiliations [⟨"A", "B", "5"⟩] []).1.map Prod.fst := by
  refine ⟨by decide, by decide, by decide⟩

/-- **C3** (amended): when every referenced id is a key of the duplicate-free
mapping, the set of new ids assigned is exactly `{1..K+M}` (as the list
`natToStr` of `range' 1 (K+M)`), where K is the number of distinct referenced
ids and M the number of orphans; the first K entries are the renumbered
referenced affiliations and the entries beyond K are the orphans. -/
theorem c3_amended (names : List Author) (amap : AMap)
    (hpres : ∀ oid ∈ refsOf names, (amap.lookup oid).isSome = true)
    (hnd : (amap.map Prod.fst).Nodup) :
    (renumber_affiliations names amap).1.map Prod.fst =
      (List.range' 1 ((usedIds names).length +
        (orphansOf (usedIds names) amap).length)).map natToStr ∧
    ((renumber_affiliations names amap).1.take (usedIds names).length) =
      newAffilsFor amap 1 (usedIds names) ∧
    ((renumber_affiliations names amap).1.drop (usedIds names).length) =
      (orphanSpec (usedIds names)
        (1 + (usedIds names).length) amap).2 := by
  have hU : ∀ x ∈ usedIds names, (amap.lookup x).isSome = true := by
    intro x hx
    exact hpres x (mem_dedupSeen.mp hx).1
  have hK : presentCount amap (usedIds names) = (usedIds names).length :=
    presentCount_all hU
  have horph : (orphanSpec (usedIds names)
      (1 + presentCount amap (usedIds names)) amap).2.length =
      (orphansOf (usedIds names) amap).length := by
    rw [orphanSpec_of_nodup hnd]
    simp
  have hsplit : (renumber_affiliations names amap).1 =
      newAffilsFor amap 1 (usedIds names) ++
        (orphanSpec (usedIds names)
          (1 + presentCount amap (usedIds names)) amap).2 := by
    show (renFinal names amap).newAffils = _
    rw [renFinal_char]
  have hlen : (newAffilsFor amap 1 (usedIds names)).length =
      (usedIds names).length := by
    rw [newAffilsFor_length, hK]
  refine ⟨?_, ?_, ?_⟩
  · rw [hsplit, List.map_append, newAffilsFor_ids, orphanSpec_ids, horph, hK,
      ← List.map_append, ← range'_add]
  · rw [hsplit, ← hlen, List.take_left]
  · rw [hsplit, ← hlen, List.drop_left, hlen, hK]

/-- **C3** (amended) witness at a concrete input with one referenced and one
orphaned affiliation. -/
theorem c3_amended_witness :
    (renumber_affiliations [⟨"Doe", "Jane", "2"⟩] [("2", "B"), ("7", "O")]).1.map
        Prod.fst = (List.range' 1 2).map natToStr := by
  have h := c3_amended [⟨"Doe", "Jane", "2"⟩] [("2", "B"), ("7", "O")]
    (by decide) (by decide)
  exact h.1

/-- **C4.** The warnings recorded by the engine are exactly one per first
encounter of a referenced id absent from the mapping, pairing the referencing
author's last name with the id; each such id is registered as an identity
mapping in the final RemapTable; and every entry of the output affiliation
list carries the text of some mapping entry (so no entry is emitted for a
missing id); the engine is a total function, so processing always
continues. -/
theorem c4_missing_id_warning (names : List Author) (amap : AMap) :
    (renFinal names amap).warnings = warnsFor amap [] (flatRefs names) ∧
    (∀ w ∈ (renFinal names amap).warnings,
      amap.lookup w.2 = none ∧
      (renFinal names amap).remap.lookup w.2 = some w.2) ∧
    ∀ p ∈ (renumber_affiliations names amap).1,
      ∃ oid, amap.lookup oid = some p.2 := by
  refine ⟨by rw [renFinal_char], ?_, ?_⟩
  · intro w hw
    have hw2 : w ∈ warnsFor amap [] (flatRefs names) := by
      rw [renFinal_char] at hw
      exact hw
    obtain ⟨habs, hmem⟩ := warnsFor_mem amap (flatRefs names) [] w hw2
    rw [flatRefs_snd] at hmem
    refine ⟨habs, ?_⟩
    rw [renFinal_char]
    apply lookup_append_some
    exact newIdsFor_lookup_absent amap 1 (usedIds names)
      (dedupSeen_nodup _ _) w.2 hmem habs
  · intro p hp
    have hp2 : p ∈ newAffilsFor amap 1 (usedIds names) ++
        (orphanSpec (usedIds names)
          (1 + presentCount amap (usedIds names)) amap).2 := by
      have hp3 : p ∈ (renFinal names amap).newAffils := hp
      rw [renFinal_char] at hp3
      exact hp3
    rcases List.mem_append.mp hp2 with h1 | h1
    · obtain ⟨oid, ho1, _⟩ :=
        newAffilsFor_mem amap 1 (usedIds names) (dedupSeen_nodup _ _) p h1
      exact ⟨oid, ho1⟩
    · obtain ⟨oid, _, ho1, _⟩ :=
        orphanSpec_mem amap (usedIds names)
          (1 + presentCount amap (usedIds names)) p h1
      exact ⟨oid, ho1⟩

/-- **C4** witness: an author referencing the absent id "9" produces the
warning, the identity mapping, and no affiliation output. -/
theorem c4_missing_id_warning_witness :
    ([] : AMap).lookup "9" = none ∧
      (renFinal [⟨"Solo", "Han", "9"⟩] []).remap.lookup "9" = some "9" := by
  have h := c4_missing_id_warning [⟨"Solo", "Han", "9"⟩] []
  exact h.2.1 ("Solo", "9") (by decide)

/-- **C5** (counterexample). With no authors and the mapping iterating as
5 then 3, the orphans are appended in mapping order — texts "E" then "C" —
not in numerically sorted order of the original ids (3 before 5), which
would give texts "C" then "E". -/
theorem c5_counterexample :
    (renumber_affiliations [] [("5", "E"), ("3", "C")]).1 =
        [("1", "E"), ("2", "C")] ∧
      (renumber_affiliations [] [("5", "E"), ("3", "C")]).1 ≠
        [("1", "C"), ("2", "E")] := by
  refine ⟨by decide, by decide⟩

/-- **C5** (amended): after all authors are processed, every mapping entry
never referenced by any author is appended after all referenced
affiliations, with the next sequential new ids, in the mapping's iteration
order (not numerically sorted). -/
theorem c5_amended (names : List Author) (amap : AMap)
    (hnd : (amap.map Prod.fst).Nodup) :
    (renumber_affiliations names amap).1 =
      newAffilsFor amap 1 (usedIds names) ++
        List.zipWith (fun k p => (natToStr k, p.2))
          (List.range' (1 + presentCount amap (usedIds names))
            (orphansOf (usedIds names) amap).length)
          (orphansOf (usedIds names) amap) := by
  show (renFinal names amap).newAffils = _
  rw [renFinal_char, orphanSpec_of_nodup hnd]

/-- **C5** (amended) witness at the counterexample input: orphans "5" and
"3" appear in mapping order with sequential ids. -/
theorem c5_amended_witness :
    (renumber_affiliations [] [("5", "E"), ("3", "C")]).1 =
      newAffilsFor [("5", "E"), ("3", "C")] 1 (usedIds []) ++
        List.zipWith (fun k p => (natToStr k, p.2))
          (List.range' (1 + presentCount [("5", "E"), ("3", "C")] (usedIds []))
            (orphansOf (usedIds []) [("5", "E"), ("3", "C")]).length)
          (orphansOf (usedIds []) [("5", "E"), ("3", "C")]) :=
  c5_amended [] [("5", "E"), ("3", "C")] (by decide)

/-- **C10.** When every referenced id is a key of the mapping, the final
RemapTable is injective: two keys mapped to the same new id are equal. -/
theorem c10_remap_injective (names : List Author) (amap : AMap)
    (hpres : ∀ oid ∈ refsOf names, (amap.lookup oid).isSome = true) :
    ∀ k₁ k₂ v, (renFinal names amap).remap.lookup k₁ = some v →
      (renFinal names amap).remap.lookup k₂ = some v → k₁ = k₂ := by
  intro k₁ k₂ v h₁ h₂
  have hU : ∀ x ∈ usedIds names, (amap.lookup x).isSome = true := by
    intro x hx
    exact hpres x (mem_dedupSeen.mp hx).1
  have hvals : (renFinal names amap).remap.map Prod.snd =
      (List.range' 1 ((usedIds names).length +
        (orphanSpec (usedIds names)
          (1 + presentCount amap (usedIds names)) amap).2.length)).map natToStr := by
    rw [renFinal_char]
    simp only [List.map_append]
    rw [newIdsFor_values_present 1 (usedIds names) hU, orphanSpec_remap_values,
      presentCount_all hU, ← List.map_append, ← range'_add]
  have hnd : ((renFinal names amap).remap.map Prod.snd).Nodup := by
    rw [hvals]
    exact List.Nodup.map natToStr_injective (List.nodup_range' _ _ 1 Nat.one_pos)
  have hm₁ := lookup_mem h₁
  have hm₂ := lookup_mem h₂
  have := List.inj_on_of_nodup_map hnd hm₁ hm₂ (by rfl)
  exact congrArg Prod.fst this

/-- **C10** witness: on a two-affiliation input referenced in reverse order,
the theorem applies and its hypotheses hold. -/
theorem c10_remap_injective_witness :
    (renFinal [⟨"Doe", "Jane", "2,1"⟩] [("1", "A"), ("2", "B")]).remap.lookup
        "2" = some "1" ∧ ("2" : String) = "2" := by
  refine ⟨by decide, ?_⟩
  exact c10_remap_injective [⟨"Doe", "Jane", "2,1"⟩] [("1", "A"), ("2", "B")]
    (by decide) "2" "2" "1" (by decide) (by decide)

/-! ## Canonical inputs and idempotence -/

/-- A string usable as an id token: nonempty, whitespace-free, comma-free. -/
def tokenLike (s : String) : Prop :=
  s.data ≠ [] ∧ ∀ c ∈ s.data, isPyWs c = false ∧ c ≠ ','

theorem tokenLike_natToStr (n : Nat) : tokenLike (natToStr n) :=
  natToStr_chars n

/-- Normalisation of one author by an identity renumbering: the affiliation
string is reparsed and rejoined with bare commas. -/
def normCanon (a : Author) : Author :=
  if pyStrip a.affils = "" then a
  else { a with affils := joinComma (parseIds a.affils) }

theorem lookup_map_pair :
    ∀ (amap : AMap) (oid : String), oid ∈ amap.map Prod.fst →
      (amap.map (fun p => (p.1, p.1))).lookup oid = some oid := by
  intro amap
  induction amap with
  | nil => intro oid h; simp at h
  | cons q rest ih =>
    intro oid h
    cases q with
    | mk k t =>
      simp only [List.map_cons, List.lookup]
      by_cases hk : oid = k
      · subst hk; simp
      · have : (oid == k) = false := by simp [hk]
        rw [this]
        apply ih
        simp only [List.map_cons, List.mem_cons] at h
        rcases h with h | h
        · exact absurd h hk
        · exact h

theorem newAffilsFor_self :
    ∀ (rest pre : AMap) (n : Nat),
      ((pre ++ rest).map Prod.fst).Nodup →
      (∀ i (h : i < rest.length), (rest.get ⟨i, h⟩).1 = natToStr (n + i)) →
      newAffilsFor (pre ++ rest) n (rest.map Prod.fst) = rest := by
  intro rest
  induction rest with
  | nil => intro pre n _ _; rfl
  | cons q rest' ih =>
    intro pre n hnd hidx
    cases q with
    | mk k t =>
      have hk : k = natToStr n := by
        have := hidx 0 (by simp)
        simpa using this
      have hnotpre : k ∉ pre.map Prod.fst := by
        rw [List.map_append] at hnd
        have hdisj := (List.nodup_append.mp hnd).2.2
        intro hc
        exact hdisj hc (by simp)
      have hlkpre : pre.lookup k = none := by
        cases hx : pre.lookup k with
        | none => rfl
        | some v =>
          exact absurd (lookup_isSome_iff.mp (by rw [hx]; rfl)) hnotpre
      have hlook : (pre ++ (k, t) :: rest').lookup k = some t := by
        rw [lookup_append_none hlkpre, List.lookup]
        simp
      simp only [List.map_cons, newAffilsFor, hlook]
      have happ : pre ++ (k, t) :: rest' = (pre ++ [(k, t)]) ++ rest' := by
        simp
      have hidx2 : ∀ i (h : i < rest'.length),
          (rest'.get ⟨i, h⟩).1 = natToStr (n + 1 + i) := by
        intro i h
        have := hidx (i + 1) (by simpa using Nat.succ_lt_succ h)
        have harith : n + (i + 1) = n + 1 + i := by omega
        simpa [harith] using this
      have := ih (pre ++ [(k, t)]) (n + 1) (by rw [← happ]; exact hnd) hidx2
      rw [happ, this, ← hk]

theorem newIdsFor_self :
    ∀ (rest pre : AMap) (n : Nat),
      ((pre ++ rest).map Prod.fst).Nodup →
      (∀ i (h : i < rest.length), (rest.get ⟨i, h⟩).1 = natToStr (n + i)) →
      newIdsFor (pre ++ rest) n (rest.map Prod.fst) =
        rest.map (fun p => (p.1, p.1)) := by
  intro rest
  induction rest with
  | nil => intro pre n _ _; rfl
  | cons q rest' ih =>
    intro pre n hnd hidx
    cases q with
    | mk k t =>
      have hk : k = natToStr n := by
        have := hidx 0 (by simp)
        simpa using this
      have hnotpre : k ∉ pre.map Prod.fst := by
        rw [List.map_append] at hnd
        have hdisj := (List.nodup_append.mp hnd).2.2
        intro hc
        exact hdisj hc (by simp)
      have hlkpre : pre.lookup k = none := by
        cases hx : pre.lookup k with
        | none => rfl
        | some v =>
          exact absurd (lookup_isSome_iff.mp (by rw [hx]; rfl)) hnotpre
      have hlook : (pre ++ (k, t) :: rest').lookup k = some t := by
        rw [lookup_append_none hlkpre, List.lookup]
        simp
      simp only [List.map_cons, newIdsFor, hlook]
      have happ : pre ++ (k, t) :: rest' = (pre ++ [(k, t)]) ++ rest' := by
        simp
      have hidx2 : ∀ i (h : i < rest'.length),
          (rest'.get ⟨i, h⟩).1 = natToStr (n + 1 + i) := by
        intro i h
        have := hidx (i + 1) (by simpa using Nat.succ_lt_succ h)
        have harith : n + (i + 1) = n + 1 + i := by omega
        simpa [harith] using this
      have := ih (pre ++ [(k, t)]) (n + 1) (by rw [← happ]; exact hnd) hidx2
      rw [happ, this, ← hk]

theorem parseIds_normCanon {a : Author}
    (h : ∀ s ∈ parseIds a.affils, tokenLike s) :
    parseIds (normCanon a).affils = parseIds a.affils := by
  unfold normCanon
  by_cases h1 : pyStrip a.affils = ""
  · rw [if_pos h1]
  · rw [if_neg h1]
    exact parseIds_joinComma h

theorem pyStrip_joinComma_ne {x : String} {rest : List String}
    (hx : x.data ≠ []) (hnws : ∀ c ∈ x.data, isPyWs c = false) :
    pyStrip (joinComma (x :: rest)) ≠ "" := by
  intro hc
  have hdata : trimChars (joinComma (x :: rest)).data = [] := by
    have := congrArg String.data hc
    simpa [pyStrip] using this
  have hall := trimChars_eq_nil_iff.mp hdata
  cases hxd : x.data with
  | nil => exact hx hxd
  | cons c₀ cs =>
    have hmem : c₀ ∈ (joinComma (x :: rest)).data := by
      unfold joinComma
      cases rest with
      | nil => simp [joinWith, hxd]
      | cons y ys =>
        simp only [List.map_cons, joinWith, String.data]
        apply List.mem_append_left
        rw [hxd]
        exact List.mem_cons_self _ _
    have := hall c₀ hmem
    have h2 := hnws c₀ (by rw [hxd]; exact List.mem_cons_self _ _)
    rw [this] at h2
    exact Bool.true_eq_false.mp h2

theorem normCanon_idem {a : Author}
    (h : ∀ s ∈ parseIds a.affils, tokenLike s) :
    normCanon (normCanon a) = normCanon a := by
  by_cases h1 : pyStrip a.affils = ""
  · simp [normCanon, h1]
  · have hform : normCanon a = { a with affils := joinComma (parseIds a.affils) } := by
      unfold normCanon
      rw [if_neg h1]
    cases hids : parseIds a.affils with
    | nil =>
      rw [hform, hids]
      unfold normCanon
      have : pyStrip (joinComma ([] : List String)) = "" := by rfl
      rw [if_pos this]
    | cons x rest =>
      have hx := h x (by rw [hids]; exact List.mem_cons_self _ _)
      have hne : pyStrip (joinComma (x :: rest)) ≠ "" :=
        pyStrip_joinComma_ne hx.1 (fun c hc => (hx.2 c hc).1)
      rw [hform, hids]
      unfold normCanon
      simp only [hne, if_false]
      have hrt : parseIds (joinComma (x :: rest)) = x :: rest := by
        apply parseIds_joinComma
        intro s hs
        apply h
        rw [hids]
        exact hs
      simp [hrt]

theorem refsOf_map_normCanon {names : List Author}
    (h : ∀ a ∈ names, ∀ s ∈ parseIds a.affils, tokenLike s) :
    refsOf (names.map normCanon) = refsOf names := by
  induction names with
  | nil => rfl
  | cons a rest ih =>
    simp only [refsOf, List.map_cons, List.flatMap_cons]
    rw [parseIds_normCanon (h a (List.mem_cons_self _ _))]
    congr 1
    exact ih (fun b hb => h b (List.mem_cons_of_mem _ hb))

/-- On canonical input (mapping keys = ids in first-appearance order =
`"1" … "N"`), one run returns the mapping unchanged and only normalises the
author affiliation strings. -/
theorem renumber_canonical (names : List Author) (amap : AMap)
    (h1 : amap.map Prod.fst = usedIds names)
    (h2 : amap.map Prod.fst = (List.range' 1 amap.length).map natToStr) :
    (renumber_affiliations names amap).1 = amap ∧
    (renumber_affiliations names amap).2 = names.map normCanon := by
  have hnd : (amap.map Prod.fst).Nodup := by
    rw [h2]
    exact List.Nodup.map natToStr_injective (List.nodup_range' _ _ 1 Nat.one_pos)
  have hidx : ∀ i (h : i < amap.length), (amap.get ⟨i, h⟩).1 = natToStr (1 + i) := by
    intro i h
    have hlen1 : i < (amap.map Prod.fst).length := by simpa using h
    have hlen2 : i < ((List.range' 1 amap.length).map natToStr).length := by
      simpa using h
    have h3 := List.getElem_of_eq h2 hlen1
    rw [List.getElem_map, List.getElem_map, List.getElem_range'_1] at h3
    simpa using h3
  have hallseen : ∀ k ∈ amap.map Prod.fst, k ∈ usedIds names := by
    intro k hk
    rw [h1] at hk
    exact hk
  have hself_affils : newAffilsFor amap 1 (usedIds names) = amap := by
    rw [← h1]
    have := newAffilsFor_self amap [] 1 (by simpa using hnd) (by simpa using hidx)
    simpa using this
  have hself_ids : newIdsFor amap 1 (usedIds names) =
      amap.map (fun p => (p.1, p.1)) := by
    rw [← h1]
    have := newIdsFor_self amap [] 1 (by simpa using hnd) (by simpa using hidx)
    simpa using this
  have horph := orphanSpec_all_seen hallseen
    (1 + presentCount amap (usedIds names))
  constructor
  · show (renFinal names amap).newAffils = amap
    rw [renFinal_char, horph, hself_affils]
    simp
  · rw [renumber_out]
    apply List.map_congr_left
    intro a ha
    unfold rewriteWith normCanon
    by_cases hb : pyStrip a.affils = ""
    · rw [if_pos hb, if_pos hb]
    · rw [if_neg hb, if_neg hb]
      have hR : (renFinal names amap).remap =
          amap.map (fun p => (p.1, p.1)) := by
        rw [renFinal_char, horph, hself_ids]
        simp
      congr 1
      have : (parseIds a.affils).map
          (fun oid => (((renFinal names amap).remap.lookup oid).getD oid)) =
          (parseIds a.affils).map (fun oid => oid) := by
        apply List.map_congr_left
        intro oid hm
        have hmemU : oid ∈ usedIds names := by
          apply mem_dedupSeen.mpr
          refine ⟨?_, by simp⟩
          unfold refsOf
          exact List.mem_flatMap.mpr ⟨a, ha, hm⟩
        have hmemK : oid ∈ amap.map Prod.fst := by rw [h1]; exact hmemU
        rw [hR, lookup_map_pair amap oid hmemK]
        rfl
      rw [this, List.map_id']

/-- **C2.** On already-canonical input (ids exactly 1…N in order of first
appearance, every referenced id present, no orphans) the engine is a no-op:
the output affiliation list is the input mapping, the output authors carry
the same parsed ids, and a second run on the output reproduces the first
run's output exactly. -/
theorem c2_idempotent_on_canonical (names : List Author) (amap : AMap)
    (h1 : amap.map Prod.fst = usedIds names)
    (h2 : amap.map Prod.fst = (List.range' 1 amap.length).map natToStr) :
    (renumber_affiliations names amap).1 = amap ∧
    ((renumber_affiliations names amap).2).map (fun a => parseIds a.affils) =
      names.map (fun a => parseIds a.affils) ∧
    renumber_affiliations (renumber_affiliations names amap).2 amap =
      renumber_affiliations names amap := by
  have htok : ∀ a ∈ names, ∀ s ∈ parseIds a.affils, tokenLike s := by
    intro a ha s hs
    have hmemU : s ∈ usedIds names := by
      apply mem_dedupSeen.mpr
      refine ⟨?_, by simp⟩
      unfold refsOf
      exact List.mem_flatMap.mpr ⟨a, ha, hs⟩
    have : s ∈ (List.range' 1 amap.length).map natToStr := by
      rw [← h2, h1]
      exact hmemU
    obtain ⟨n, _, hn⟩ := List.mem_map.mp this
    rw [← hn]
    exact tokenLike_natToStr n
  obtain ⟨hA, hN⟩ := renumber_canonical names amap h1 h2
  have hrefs : refsOf (names.map normCanon) = refsOf names :=
    refsOf_map_normCanon htok
  have h1' : amap.map Prod.fst = usedIds (names.map normCanon) := by
    unfold usedIds
    rw [hrefs]
    exact h1
  obtain ⟨hA', hN'⟩ := renumber_canonical (names.map normCanon) amap h1' h2
  have hidem : (names.map normCanon).map normCanon = names.map normCanon := by
    rw [List.map_map]
    apply List.map_congr_left
    intro a ha
    exact normCanon_idem (htok a ha)
  refine ⟨hA, ?_, ?_⟩
  · rw [hN, List.map_map]
    apply List.map_congr_left
    intro a ha
    exact parseIds_normCanon (htok a ha)
  · rw [hN]
    apply Prod.ext
    · rw [hA', hA]
    · rw [hN', hN, hidem]

/-- **C2** witness: the spec's own canonical example (authors referencing
`1,2` then `2,3`, mapping exactly 1,2,3) re-runs to an identical output. -/
theorem c2_idempotent_on_canonical_witness :
    renumber_affiliations
        (renumber_affiliations
          [⟨"Doe", "Jane", "1,2"⟩, ⟨"Smith", "John", "2,3"⟩]
          [("1", "A"), ("2", "B"), ("3", "C")]).2
        [("1", "A"), ("2", "B"), ("3", "C")] =
      renumber_affiliations
        [⟨"Doe", "Jane", "1,2"⟩, ⟨"Smith", "John", "2,3"⟩]
        [("1", "A"), ("2", "B"), ("3", "C")] :=
  (c2_idempotent_on_canonical
    [⟨"Doe", "Jane", "1,2"⟩, ⟨"Smith", "John", "2,3"⟩]
    [("1", "A"), ("2", "B"), ("3", "C")]
    (by decide) (by decide)).2.2

/-! ## The extractor (`author_doc_to_csv.py`) -/

/-- Is this trimmed line the section sentinel? Python:
`clean_line.lower() == "affiliations"` (ASCII case folding). -/
def isSentLine (l : List Char) : Bool :=
  (l.map asciiLower) = "affiliations".data

/-- The loop of `parse_data` (lines 69–90): state `fs` is `found_split`,
`ts` is `title_skipped`. -/
def segGo : Bool → Bool → List (List Char) → List (List Char) × List (List Char)
  | _, _, [] => ([], [])
  | fs, ts, line :: rest =>
    let c := trimChars line
    if c = [] then segGo fs ts rest
    else if isSentLine c then segGo true ts rest
    else if fs then
      let q := segGo fs ts rest
      (q.1, c :: q.2)
    else if ts then
      let q := segGo fs ts rest
      (c :: q.1, q.2)
    else segGo fs true rest

/-- `parse_data(full_text)` : split into author block and affiliation block,
each newline-joined. -/
def parse_data (t : String) : String × String :=
  let p := segGo false false (splitOnCh '\n' t.data)
  (String.mk (joinWith '\n' p.1), String.mk (joinWith '\n' p.2))

/-- Python dict insertion: overwrite in place if the key exists, else
append. -/
def dinsert (m : AMap) (k v : String) : AMap :=
  match m with
  | [] => [(k, v)]
  | (k₀, v₀) :: rest =>
    if k₀ = k then (k, v) :: rest else (k₀, v₀) :: dinsert rest k v

/-- One line of the affiliation block against the pattern
`^(\d+)\s*(.*)` applied to the stripped line: the leading digit run is the
id, the remainder after the separating whitespace is the text. -/
def matchAffLine (l : List Char) : Option (String × String) :=
  let l2 := trimChars l
  let ds := l2.takeWhile Char.isDigit
  if ds.isEmpty then none
  else some (String.mk ds, String.mk ((l2.drop ds.length).dropWhile isPyWs))

/-- `parse_affiliations_to_dict(text)`. -/
def parse_affiliations_to_dict (text : String) : AMap :=
  (splitOnCh '\n' (trimChars text.data)).foldl
    (fun m l =>
      match matchAffLine l with
      | none => m
      | some p => dinsert m p.1 p.2) []

/-- One parsed author record. -/
structure AuthorRec where
  first_middle : String
  last_name : String
  affiliations : String
deriving Repr, DecidableEq

/-- The matches of `([^\d]+?)(\d[\d,]*)` over a character stream, in order:
each match is a maximal nondigit run (ending just before a digit) paired with
the following maximal run of digits and commas. Leading digit runs that no
nondigit character precedes are skipped, as `finditer` cannot start a match
on them. Fuel-driven for kernel computability; `authMatches` supplies
sufficient fuel. -/
def authMatchesAux : Nat → List Char → List (List Char × List Char)
  | 0, _ => []
  | fuel + 1, cs =>
    let pre := cs.takeWhile (fun c => !c.isDigit)
    let rest := cs.dropWhile (fun c => !c.isDigit)
    match rest with
    | [] => []
    | _ :: _ =>
      if pre.isEmpty then authMatchesAux fuel (rest.dropWhile Char.isDigit)
      else
        let run := rest.takeWhile (fun c => c.isDigit || c = ',')
        (pre, run) :: authMatchesAux fuel (rest.drop run.length)

def authMatches (cs : List Char) : List (List Char × List Char) :=
  authMatchesAux (cs.length + 1) cs

/-- Python `str.split()` with no separator: whitespace runs split, empty
tokens discarded. -/
def splitWsGo (cur : List Char) : List Char → List (List Char)
  | [] => if cur.isEmpty then [] else [cur.reverse]
  | c :: rest =>
    if isPyWs c then
      if cur.isEmpty then splitWsGo [] rest
      else cur.reverse :: splitWsGo [] rest
    else splitWsGo (c :: cur) rest

def pySplitWs (l : List Char) : List String := (splitWsGo [] l).map String.mk

/-- Python `" ".join l`. -/
def joinSpace (l : List String) : String :=
  String.mk (joinWith ' ' (l.map String.data))

/-- Python `l.strip(',')` : drop commas at both ends. -/
def stripCommas (l : List Char) : List Char :=
  ((l.dropWhile (fun c => c = ',')).reverse.dropWhile (fun c => c = ',')).reverse

/-- Processing of one regex match (lines 124–150): clean the name, discard
the record if the name is empty, tokenize into first/middle and last parts,
trim commas off the id run. -/
def mkAuthor (name run : List Char) : Option AuthorRec :=
  let name1 := trimChars name
  let name2 := name1.dropWhile (fun c => c = ',' || c = ' ')
  if name2.isEmpty then none
  else
    let toks := pySplitWs name2
    let affs := stripCommas (trimChars run)
    if toks.length > 1 then
      some ⟨joinSpace toks.dropLast, toks.getLast?.getD "", String.mk affs⟩
    else
      some ⟨"", String.mk name2, String.mk affs⟩

/-- `parse_authors_to_list(text)` : flatten lines into one space-joined
stream, scan it for name+digit-run matches, and build one record per
match with a nonempty cleaned name. -/
def parse_authors_to_list (text : String) : List AuthorRec :=
  let clean := trimChars (text.data.map (fun c => if c = '\n' then ' ' else c))
  (authMatches clean).filterMap (fun p => mkAuthor p.1 p.2)

/-- The newline join that models what the docx text extraction feeds into
`parse_data` : one line per paragraph. -/
def joinLines (ls : List String) : String :=
  String.mk (joinWith '\n' (ls.map String.data))

/-! ## The renderer (`csv_to_author_doc.py`) -/

/-- Python `str.isdigit()` for ASCII content: nonempty and all digits. -/
def pyIsdigit (s : String) : Bool :=
  !s.data.isEmpty && s.data.all Char.isDigit

/-- Python `int(s)` on a digit string. -/
def pyInt (s : String) : Nat := digitsVal s.data

/-- Python string `<=` : lexicographic on code points. -/
def chLe : List Char → List Char → Bool
  | [], _ => true
  | _ :: _, [] => false
  | a :: as, b :: bs =>
    if a.toNat < b.toNat then true
    else if b.toNat < a.toNat then false
    else chLe as bs

def pyStrLe (a b : String) : Bool := chLe a.data b.data

/-- `sorted(affiliations.keys(), key=lambda x: int(x) if x.isdigit() else x)`
(line 135): a uniform key type sorts stably by that key; a mixed population
of int and str keys makes the comparison raise `TypeError`. -/
def sortedAffilIds (amap : AMap) : Except String (List String) :=
  let keys := amap.map Prod.fst
  if keys.all pyIsdigit then
    Except.ok (keys.insertionSort (fun a b => pyInt a ≤ pyInt b))
  else if keys.all (fun k => !pyIsdigit k) then
    Except.ok (keys.insertionSort (fun a b => pyStrLe a b = true))
  else
    Except.error "TypeError: '<' not supported between instances of 'str' and 'int'"

/-- `xml.sax.saxutils.escape` : `&`, `<`, `>` replaced by entities. -/
def escapeXml (s : String) : String :=
  String.mk (s.data.flatMap (fun c =>
    if c = '&' then "&amp;".data
    else if c = '<' then "&lt;".data
    else if c = '>' then "&gt;".data
    else [c]))

/-- `create_run_xml(text, superscription, bold)`. -/
def create_run_xml (text : String) (superscription bold : Bool) : String :=
  let props :=
    if superscription || bold then
      "<w:rPr>" ++ (if bold then "<w:b/>" else "") ++
        (if superscription then "<w:vertAlign w:val=\"superscript\"/>" else "") ++
        "</w:rPr>"
    else ""
  "<w:r>" ++ props ++ "<w:t xml:space=\"preserve\">" ++ escapeXml text ++
    "</w:t></w:r>"

/-- `create_paragraph_xml(runs)`. -/
def create_paragraph_xml (runs : List String) : String :=
  "<w:p>" ++ String.join runs ++ "</w:p>"

/-- The runs of the single author paragraph: name, optional superscripted
id run, and a comma separator after every author but the last. -/
def authorRunsGo : List Author → List String
  | [] => []
  | [a] =>
    [create_run_xml (pyStrip (String.mk (a.first.data ++ ' ' :: a.last.data)))
        false false] ++
      (if a.affils ≠ "" then [create_run_xml a.affils true false] else [])
  | a :: rest =>
    [create_run_xml (pyStrip (String.mk (a.first.data ++ ' ' :: a.last.data)))
        false false] ++
      (if a.affils ≠ "" then [create_run_xml a.affils true false] else []) ++
      [create_run_xml ", " false false] ++ authorRunsGo rest

/-- The fixed halves of `DOCUMENT_XML_TEMPLATE` around the injected body. -/
def docPre : String :=
  "<?xml version=\"1.0\" encoding=\"UTF-8\" standalone=\"yes\"?>\n<w:document xmlns:w=\"http://schemas.openxmlformats.org/wordprocessingml/2006/main\">\n    <w:body>\n        "

def docPost : String :=
  "\n        <w:sectPr>\n            <w:pgSz w:w=\"12240\" w:h=\"15840\"/>\n            <w:pgMar w:top=\"1440\" w:right=\"1440\" w:bottom=\"1440\" w:left=\"1440\" w:header=\"720\" w:footer=\"720\" w:gutter=\"0\"/>\n        </w:sectPr>\n    </w:body>\n</w:document>"

/-- `generate_document_xml(authors, affiliations)` : heading, author
paragraph, blank paragraph, affiliations heading, then one paragraph per
affiliation in sorted id order; the sort can raise on malformed keys. -/
def generate_document_xml (authors : List Author) (amap : AMap) :
    Except String String :=
  match sortedAffilIds amap with
  | Except.error e => Except.error e
  | Except.ok ids =>
    Except.ok (docPre ++
      create_paragraph_xml [create_run_xml "Authors" false true] ++
      create_paragraph_xml (authorRunsGo authors) ++
      create_paragraph_xml [] ++
      create_paragraph_xml [create_run_xml "Affiliations" false true] ++
      String.join (ids.map (fun i =>
        create_paragraph_xml
          [create_run_xml i true false,
            create_run_xml (String.mk (' ' :: ((amap.lookup i).getD "").data))
              false false])) ++
      docPost)

/-- Success observer for `Except`. -/
def exceptOk {ε α : Type} : Except ε α → Bool
  | Except.ok _ => true
  | Except.error _ => false

/-! ## The segmenter claims -/

/-- The trimmed non-blank lines, in order. -/
def nbLines (lines : List (List Char)) : List (List Char) :=
  (lines.map trimChars).filter (fun l => l ≠ [])

theorem nbLines_cons_blank {line : List Char} (rest : List (List Char))
    (hb : trimChars line = []) : nbLines (line :: rest) = nbLines rest := by
  unfold nbLines
  simp [hb]

theorem nbLines_cons {line : List Char} (rest : List (List Char))
    (hb : ¬ trimChars line = []) :
    nbLines (line :: rest) = trimChars line :: nbLines rest := by
  unfold nbLines
  simp [hb]

theorem segGo_found (lines : List (List Char)) :
    ∀ ts, segGo true ts lines =
      ([], (nbLines lines).filter (fun l => !isSentLine l)) := by
  induction lines with
  | nil => intro ts; rfl
  | cons line rest ih =>
    intro ts
    simp only [segGo]
    by_cases hb : trimChars line = []
    · rw [if_pos hb, nbLines_cons_blank rest hb]
      exact ih ts
    · rw [if_neg hb, nbLines_cons rest hb]
      by_cases hs : isSentLine (trimChars line) = true
      · rw [if_pos hs, List.filter_cons]
        have hneg : (!isSentLine (trimChars line)) = false := by rw [hs]; rfl
        rw [hneg]
        simp only [Bool.false_eq_true, if_false]
        exact ih ts
      · rw [if_neg hs]
        simp only [if_true, if_false]
        rw [ih ts, List.filter_cons]
        have hs2 : isSentLine (trimChars line) = false := by simpa using hs
        have hpos : (!isSentLine (trimChars line)) = true := by rw [hs2]; rfl
        rw [hpos]
        simp

theorem segGo_title_done (lines : List (List Char)) :
    segGo false true lines =
      ((nbLines lines).takeWhile (fun l => !isSentLine l),
        ((nbLines lines).dropWhile (fun l => !isSentLine l)).filter
          (fun l => !isSentLine l)) := by
  induction lines with
  | nil => rfl
  | cons line rest ih =>
    simp only [segGo]
    by_cases hb : trimChars line = []
    · rw [if_pos hb, nbLines_cons_blank rest hb]
      exact ih
    · rw [if_neg hb, nbLines_cons rest hb]
      by_cases hs : isSentLine (trimChars line) = true
      · rw [if_pos hs, segGo_found rest true, List.takeWhile_cons,
          List.dropWhile_cons]
        have hneg : (!isSentLine (trimChars line)) = false := by rw [hs]; rfl
        rw [hneg]
        simp only [Bool.false_eq_true, if_false, List.filter_cons, hneg]
      · have hs2 : isSentLine (trimChars line) = false := by simpa using hs
        have hpos : (!isSentLine (trimChars line)) = true := by rw [hs2]; rfl
        rw [if_neg hs]
        simp only [if_true, if_false]
        rw [ih, List.takeWhile_cons, List.dropWhile_cons, hpos]
        simp

theorem segGo_start (lines : List (List Char)) :
    segGo false false lines =
      (((nbLines lines).takeWhile (fun l => !isSentLine l)).drop 1,
        ((nbLines lines).dropWhile (fun l => !isSentLine l)).filter
          (fun l => !isSentLine l)) := by
  induction lines with
  | nil => rfl
  | cons line rest ih =>
    simp only [segGo]
    by_cases hb : trimChars line = []
    · rw [if_pos hb, nbLines_cons_blank rest hb]
      exact ih
    · rw [if_neg hb, nbLines_cons rest hb]
      by_cases hs : isSentLine (trimChars line) = true
      · rw [if_pos hs, segGo_found rest false, List.takeWhile_cons,
          List.dropWhile_cons]
        have hneg : (!isSentLine (trimChars line)) = false := by rw [hs]; rfl
        rw [hneg]
        simp only [Bool.false_eq_true, if_false, List.filter_cons, hneg]
        rfl
      · have hs2 : isSentLine (trimChars line) = false := by simpa using hs
        have hpos : (!isSentLine (trimChars line)) = true := by rw [hs2]; rfl
        rw [if_neg hs]
        rw [segGo_title_done rest, List.takeWhile_cons, List.dropWhile_cons, hpos]
        simp

theorem mem_nbLines {l : List Char} {lines : List (List Char)}
    (h : l ∈ nbLines lines) : ∃ orig ∈ lines, l = trimChars orig := by
  unfold nbLines at h
  have h2 := List.mem_of_mem_filter h
  obtain ⟨orig, ho, he⟩ := List.mem_map.mp h2
  exact ⟨orig, ho, he.symm⟩

/-- **C7.** The segmenter discards blank lines, discards every sentinel line
(trimmed content ASCII-case-insensitively equal to "affiliations"), treats
the first remaining line before the sentinel as the title and drops it, and
splits the rest: pre-sentinel lines form the author block, post-sentinel
non-sentinel lines form the affiliation block. If the sentinel is the first
line, no title is dropped and everything after it is affiliation text; if no
sentinel appears, the affiliation block is empty. -/
theorem c7_text_segmenter (text : String) :
    parse_data text =
      (String.mk (joinWith '\n'
          (((nbLines (splitOnCh '\n' text.data)).takeWhile
            (fun l => !isSentLine l)).drop 1)),
        String.mk (joinWith '\n'
          (((nbLines (splitOnCh '\n' text.data)).dropWhile
            (fun l => !isSentLine l)).filter (fun l => !isSentLine l)))) ∧
    ((∀ l ∈ splitOnCh '\n' text.data, isSentLine (trimChars l) = false) →
      (parse_data text).2 = "") := by
  constructor
  · unfold parse_data
    rw [segGo_start]
  · intro hnone
    unfold parse_data
    rw [segGo_start]
    have hall : ∀ l ∈ nbLines (splitOnCh '\n' text.data),
        (!isSentLine l) = true := by
      intro l hl
      obtain ⟨orig, ho, he⟩ := mem_nbLines hl
      rw [he, hnone orig ho]
      rfl
    have : (nbLines (splitOnCh '\n' text.data)).dropWhile
        (fun l => !isSentLine l) = [] :=
      List.dropWhile_eq_nil_iff.mpr hall
    rw [this]
    rfl

/-- **C7** witness: a sentinel-free document has an empty affiliation
block. -/
theorem c7_text_segmenter_witness :
    (parse_data (joinLines ["Title", "A B1", "no sentinel here"])).2 = "" :=
  (c7_text_segmenter (joinLines ["Title", "A B1", "no sentinel here"])).2
    (by decide)

/-! ## The affiliation-parser claims -/

/-- First-some choice on options. -/
def optOr {α : Type} : Option α → Option α → Option α
  | some x, _ => some x
  | none, b => b

theorem optOr_none {α : Type} (a : Option α) : optOr a none = a := by
  cases a <;> rfl

theorem optOr_absorb {α : Type} (a : Option α) (x : α) (b : Option α) :
    optOr (optOr a (some x)) b = optOr a (some x) := by
  cases a <;> rfl

theorem getLast?_cons_optOr {α : Type} (x : α) (xs : List α) :
    (x :: xs).getLast? = optOr xs.getLast? (some x) := by
  induction xs generalizing x with
  | nil => rfl
  | cons y ys ih =>
    rw [List.getLast?_cons_cons, ih y]
    cases hy : ys.getLast? <;> rfl

theorem optOr_map_snd (a b : Option (String × String)) :
    (optOr a b).map Prod.snd = optOr (a.map Prod.snd) (b.map Prod.snd) := by
  cases a <;> rfl

theorem dinsert_lookup :
    ∀ (m : AMap) (k v i : String),
      (dinsert m k v).lookup i = if i = k then some v else m.lookup i := by
  intro m
  induction m with
  | nil =>
    intro k v i
    by_cases h : i = k
    · simp [dinsert, List.lookup, h]
    · have hb : (i == k) = false := by simp [h]
      simp [dinsert, List.lookup, hb, h]
  | cons q rest ih =>
    intro k v i
    cases q with
    | mk k₀ v₀ =>
      simp only [dinsert]
      by_cases h0 : k₀ = k
      · rw [if_pos h0]
        by_cases h : i = k
        · have hb : (i == k) = true := by simp [h]
          rw [List.lookup, hb, if_pos h]
        · have hb : (i == k) = false := by simp [h]
          have hb0 : (i == k₀) = false := by
            have : ¬ i = k₀ := fun hc => h (hc.trans h0)
            simp [this]
          rw [List.lookup, hb, if_neg h, List.lookup, hb0]
      · rw [if_neg h0]
        by_cases h : i = k₀
        · have hb0 : (i == k₀) = true := by simp [h]
          have hik : ¬ i = k := fun hc => h0 (h.symm.trans hc)
          rw [List.lookup, hb0, if_neg hik, List.lookup, hb0]
        · have hb0 : (i == k₀) = false := by simp [h]
          rw [List.lookup, hb0, ih k v i]
          by_cases h2 : i = k
          · rw [if_pos h2, if_pos h2]
          · rw [if_neg h2, if_neg h2, List.lookup, hb0]

theorem parseAff_fold (lines : List (List Char)) :
    ∀ (m : AMap) (i : String),
      (lines.foldl
          (fun m l =>
            match matchAffLine l with
            | none => m
            | some p => dinsert m p.1 p.2) m).lookup i =
        optOr
          (((lines.filterMap matchAffLine).filter
            (fun p => p.1 == i)).getLast?.map Prod.snd)
          (m.lookup i) := by
  induction lines with
  | nil => intro m i; rfl
  | cons line rest ih =>
    intro m i
    rw [List.foldl_cons, List.filterMap_cons]
    cases hm : matchAffLine line with
    | none => exact ih m i
    | some p =>
      cases p with
      | mk k v =>
        simp only []
        rw [ih (dinsert m k v) i, dinsert_lookup, List.filter_cons]
        by_cases hk : (k, v).1 == i
        · have hik : i = k := (beq_iff_eq.mp hk).symm
          subst hik
          have hcond : (((i, v)).1 == i) = true := by simp
          rw [if_pos hcond, getLast?_cons_optOr, optOr_map_snd]
          rw [if_pos rfl]
          have hms : (Option.map Prod.snd (some ((i, v)))) = some v := rfl
          rw [hms, optOr_absorb]
        · have hik : ¬ i = k := by
            intro hc
            subst hc
            simp at hk
          simp only [hk, Bool.false_eq_true, if_false, hik]

/-- **C8.** The affiliation parser maps each line with a leading digit run to
an id/text entry, skipping lines without a leading digit, with later
duplicate ids overwriting earlier ones: looking up any id in the result
yields the text of the LAST matching line carrying that id (and nothing for
ids with no matching line). Concretely, "1 Foo" then "1 Bar" yields the
single entry ("1", "Bar"), and a digit-free line yields nothing. -/
theorem c8_affiliation_map :
    (∀ (text : String) (i : String),
      (parse_affiliations_to_dict text).lookup i =
        (((splitOnCh '\n' (trimChars text.data)).filterMap matchAffLine).filter
          (fun p => p.1 == i)).getLast?.map Prod.snd) ∧
    parse_affiliations_to_dict "1 Foo\n1 Bar" = [("1", "Bar")] ∧
    parse_affiliations_to_dict "no leading digit" = [] := by
  refine ⟨?_, by decide, by decide⟩
  intro text i
  unfold parse_affiliations_to_dict
  rw [parseAff_fold]
  exact optOr_none _

/-! ## The author-parser claim -/

/-- The spec's name-tokenization rule: split the cleaned name on whitespace;
with more than one token, the last token is the last name and the preceding
tokens joined by single spaces are the first/middle part; otherwise the
whole cleaned name is the last name and the first/middle part is empty.
Returns (first_middle, last_name). -/
def tokenizeSpec (name2 : List Char) : String × String :=
  let toks := pySplitWs name2
  if toks.length > 1 then (joinSpace toks.dropLast, toks.getLast?.getD "")
  else ("", String.mk name2)

/-- **C6.** The author parser flattens the author block into one stream and
emits one record per name+digit-run match in order; each record's name parts
obey the tokenization rule applied to the cleaned matched name. On the
spec's example document the two expected records come out exactly. -/
theorem c6_author_records :
    parse_authors_to_list (parse_data (joinLines
        ["My Title", "Jane A. Doe1,2", "John Smith2", "Affiliations",
          "1 MIT", "2 Stanford"])).1 =
      [⟨"Jane A.", "Doe", "1,2"⟩, ⟨"John", "Smith", "2"⟩] ∧
    ∀ name run rec, mkAuthor name run = some rec →
      (rec.first_middle, rec.last_name) =
        tokenizeSpec ((trimChars name).dropWhile (fun c => c = ',' || c = ' ')) := by
  constructor
  · decide
  · intro name run rec h
    unfold mkAuthor at h
    by_cases he : ((trimChars name).dropWhile (fun c => c = ',' || c = ' ')).isEmpty
    · rw [if_pos he] at h
      exact absurd h (by simp)
    · rw [if_neg he] at h
      unfold tokenizeSpec
      by_cases hl : (pySplitWs ((trimChars name).dropWhile
          (fun c => c = ',' || c = ' '))).length > 1
      · rw [if_pos hl] at h
        rw [if_pos hl]
        cases h
        rfl
      · rw [if_neg hl] at h
        rw [if_neg hl]
        cases h
        rfl

/-- **C6** witness: the tokenization rule applied to the first example
author. -/
theorem c6_author_records_witness :
    ((⟨"Jane A.", "Doe", "1,2"⟩ : AuthorRec).first_middle,
      (⟨"Jane A.", "Doe", "1,2"⟩ : AuthorRec).last_name) =
      tokenizeSpec ((trimChars " Jane A. Doe".data).dropWhile
        (fun c => c = ',' || c = ' ')) :=
  (c6_author_records).2 " Jane A. Doe".data "1,2".data
    ⟨"Jane A.", "Doe", "1,2"⟩ (by decide)

/-! ## The renderer sorting claim -/

theorem chLe_total : ∀ a b, chLe a b = true ∨ chLe b a = true := by
  intro a
  induction a with
  | nil => intro b; left; rfl
  | cons x xs ih =>
    intro b
    cases b with
    | nil => right; rfl
    | cons y ys =>
      simp only [chLe]
      by_cases h1 : x.toNat < y.toNat
      · left; rw [if_pos h1]
      · by_cases h2 : y.toNat < x.toNat
        · right; rw [if_pos h2]
        · rw [if_neg h1, if_neg h2, if_neg h2, if_neg h1]
          exact ih ys

theorem chLe_trans : ∀ a b c, chLe a b = true → chLe b c = true →
    chLe a c = true := by
  intro a
  induction a with
  | nil => intro b c _ _; rfl
  | cons x xs ih =>
    intro b c hab hbc
    cases b with
    | nil => simp [chLe] at hab
    | cons y ys =>
      cases c with
      | nil => simp [chLe] at hbc
      | cons z zs =>
        simp only [chLe] at hab hbc ⊢
        by_cases h1 : x.toNat < y.toNat
        · by_cases h2 : y.toNat < z.toNat
          · rw [if_pos (by omega : x.toNat < z.toNat)]
          · rw [if_neg h2] at hbc
            by_cases h3 : z.toNat < y.toNat
            · rw [if_pos h3] at hbc
              exact absurd hbc (by simp)
            · rw [if_pos (by omega : x.toNat < z.toNat)]
        · rw [if_neg h1] at hab
          by_cases h4 : y.toNat < x.toNat
          · rw [if_pos h4] at hab
            exact absurd hab (by simp)
          · rw [if_neg h4] at hab
            by_cases h2 : y.toNat < z.toNat
            · rw [if_pos (by omega : x.toNat < z.toNat)]
            · rw [if_neg h2] at hbc
              by_cases h3 : z.toNat < y.toNat
              · rw [if_pos h3] at hbc
                exact absurd hbc (by simp)
              · rw [if_neg h3] at hbc
                rw [if_neg (by omega : ¬ x.toNat < z.toNat),
                  if_neg (by omega : ¬ z.toNat < x.toNat)]
                exact ih ys zs hab hbc

/-- **C9** (counterexample). On a mapping with the numeric key "1" and the
non-numeric key "x", the id sort raises `TypeError` instead of succeeding,
and so does the document renderer. -/
theorem c9_counterexample :
    sortedAffilIds [("1", "MIT"), ("x", "Oxford")] =
      Except.error
        "TypeError: '<' not supported between instances of 'str' and 'int'" ∧
    exceptOk (generate_document_xml [] [("1", "MIT"), ("x", "Oxford")]) =
      false := by
  exact ⟨rfl, rfl⟩

/-- **C9** (amended): the renderer's id sort succeeds exactly when the key
population is uniform — all numeric (sorted by integer value) or all
non-numeric (sorted lexicographically); on a mixed population it raises
`TypeError`, which propagates to `generate_document_xml`. When it succeeds,
the output is a permutation of the keys that is sorted by integer value on
numeric keys and lexicographically on non-numeric keys. -/
theorem c9_amended (amap : AMap) :
    (exceptOk (sortedAffilIds amap) =
      ((amap.map Prod.fst).all pyIsdigit ||
        (amap.map Prod.fst).all (fun k => !pyIsdigit k))) ∧
    (∀ authors, exceptOk (generate_document_xml authors amap) =
      exceptOk (sortedAffilIds amap)) ∧
    ∀ l, sortedAffilIds amap = Except.ok l →
      l.Perm (amap.map Prod.fst) ∧
      l.Pairwise (fun a b => pyIsdigit a = true → pyIsdigit b = true →
        pyInt a ≤ pyInt b) ∧
      l.Pairwise (fun a b => pyIsdigit a = false → pyIsdigit b = false →
        pyStrLe a b = true) := by
  refine ⟨?_, ?_, ?_⟩
  · unfold sortedAffilIds
    cases h1 : (amap.map Prod.fst).all pyIsdigit with
    | true => simp [h1, exceptOk]
    | false =>
      cases h2 : (amap.map Prod.fst).all (fun k => !pyIsdigit k) with
      | true => simp [h1, h2, exceptOk]
      | false => simp [h1, h2, exceptOk]
  · intro authors
    unfold generate_document_xml
    cases hs : sortedAffilIds amap <;> rfl
  · intro l hl
    unfold sortedAffilIds at hl
    by_cases h1 : (amap.map Prod.fst).all pyIsdigit = true
    · rw [if_pos h1] at hl
      cases hl
      haveI htot : IsTotal String (fun a b => pyInt a ≤ pyInt b) :=
        ⟨fun a b => Nat.le_total _ _⟩
      haveI htr : IsTrans String (fun a b => pyInt a ≤ pyInt b) :=
        ⟨fun _ _ _ hab hbc => le_trans hab hbc⟩
      refine ⟨List.perm_insertionSort _ _, ?_, ?_⟩
      · have hsorted := List.sorted_insertionSort
          (fun a b => pyInt a ≤ pyInt b) (amap.map Prod.fst)
        exact hsorted.imp (fun h _ _ => h)
      · apply List.pairwise_of_forall_mem_list
        intro a ha b _ hda _
        exfalso
        have ha2 : a ∈ amap.map Prod.fst :=
          (List.perm_insertionSort _ _).subset ha
        have := List.all_eq_true.mp h1 a ha2
        rw [this] at hda
        exact Bool.true_eq_false.mp hda
    · rw [if_neg h1] at hl
      by_cases h2 : (amap.map Prod.fst).all (fun k => !pyIsdigit k) = true
      · rw [if_pos h2] at hl
        cases hl
        haveI htot : IsTotal String (fun a b => pyStrLe a b = true) :=
          ⟨fun a b => chLe_total a.data b.data⟩
        haveI htr : IsTrans String (fun a b => pyStrLe a b = true) :=
          ⟨fun a b c hab hbc => chLe_trans a.data b.data c.data hab hbc⟩
        refine ⟨List.perm_insertionSort _ _, ?_, ?_⟩
        · apply List.pairwise_of_forall_mem_list
          intro a ha b _ hda _
          exfalso
          have ha2 : a ∈ amap.map Prod.fst :=
            (List.perm_insertionSort _ _).subset ha
          have := List.all_eq_true.mp h2 a ha2
          rw [hda] at this
          simp at this
        · have hsorted := List.sorted_insertionSort
            (fun a b => pyStrLe a b = true) (amap.map Prod.fst)
          exact hsorted.imp (fun h _ _ => h)
      · rw [if_neg h2] at hl
        exact absurd hl (by simp)

/-- **C9** (amended) witness: an all-numeric key set sorts by integer value
("10" after "2"), as a permutation of the keys. -/
theorem c9_amended_witness :
    (["1", "2", "10"] : List String).Perm
        ([("2", "B"), ("10", "J"), ("1", "A")].map Prod.fst) ∧
      (["1", "2", "10"] : List String).Pairwise
        (fun a b => pyIsdigit a = true → pyIsdigit b = true →
          pyInt a ≤ pyInt b) ∧
      (["1", "2", "10"] : List String).Pairwise
        (fun a b => pyIsdigit a = false → pyIsdigit b = false →
          pyStrLe a b = true) :=
  (c9_amended [("2", "B"), ("10", "J"), ("1", "A")]).2.2
    ["1", "2", "10"] (by rfl)

end Authorship
